import Mathlib

/-!
Verification of the Quiver-to-Obsidian conversion core.

This file gives a shallow embedding, in Lean 4, of the planning and
rewriting engine of the Quiver-to-Obsidian exporter:

* `src/quiver/utils.ts` — the collision resolver `newDistinctNoteName`;
* `src/quiver/quiver_parse.ts` — the declared-hierarchy walker
  `walkThroughNotebookHierarchty`;
* `src/quiver/index.ts` — the export planner (the planning phase of
  `transformQvLibraryToObsidian`), the resource-name normalizer
  `replaceResourceName` and the link rewriter
  `transformQuiverResourceAndNoteLink`.

Strings are manipulated through their underlying character lists so that
every definition is executable by kernel reduction.  JavaScript regular
expressions are embedded as explicit scanner functions implementing the
match/backtracking semantics of the concrete patterns used by the source
(lazy `.*?`, alternation in listed order, greedy runs, the `g` and `i`
flags); `\s` is modelled by ASCII whitespace and JS line terminators by
`'\n'`/`'\r'`.  Functions that in TypeScript `throw` are embedded in
`Except PlanError`.
-/

namespace QuiverToObsidian

/-- Errors thrown by the planning phase (`throw new Error(...)` in the
source): the duplicate-note-uuid error of `transformQvLibraryToObsidian`
and the rename-exhausted error of `newDistinctNoteName`. -/
inductive PlanError where
  | duplicateNoteId (uuid : String)
  | renameExhausted (noteName : String)
deriving Repr, DecidableEq

/-- `MAX_RENAME_COUNT` from `src/quiver/utils.ts`: maximum number of rename
attempts before giving up. -/
def MAX_RENAME_COUNT : Nat := 100

/-- Fuel-driven body of `newDistinctNoteName`.  The fuel only makes the
recursion structural; `newDistinctNoteName` supplies enough fuel that the
`index > MAX_RENAME_COUNT` guard (the source's termination condition) is
always reached first, so the fuel never alters the result. -/
def newDistinctNoteNameGo : Nat → String → List String → Nat → Except PlanError String
  | 0, noteName, _, _ => .error (.renameExhausted noteName)
  | fuel + 1, noteName, currentNames, index =>
    if MAX_RENAME_COUNT < index then .error (.renameExhausted noteName)
    else
      let newName := noteName ++ " " ++ toString index
      if currentNames.contains newName then
        newDistinctNoteNameGo fuel noteName currentNames (index + 1)
      else .ok newName

/-- `newDistinctNoteName` from `src/quiver/utils.ts`: generate a distinct
note name by appending `" {index}"`, retrying with `index + 1` while the
candidate is in `currentNames`, and failing once `index` exceeds
`MAX_RENAME_COUNT`. -/
def newDistinctNoteName (noteName : String) (currentNames : List String) (index : Nat) :
    Except PlanError String :=
  newDistinctNoteNameGo (MAX_RENAME_COUNT + 2 - index) noteName currentNames index

/-- A successful `newDistinctNoteNameGo` returns `noteName ++ " " ++ k` for
the least admissible suffix `k`: `index ≤ k ≤ MAX_RENAME_COUNT`, the result
is not among `currentNames`, and every suffix from `index` up to `k` is. -/
theorem newDistinctNoteNameGo_ok_spec (fuel : Nat) (noteName : String)
    (currentNames : List String) (index : Nat) (r : String)
    (h : newDistinctNoteNameGo fuel noteName currentNames index = .ok r) :
    ∃ k, index ≤ k ∧ k ≤ MAX_RENAME_COUNT ∧ r = noteName ++ " " ++ toString k ∧
      currentNames.contains r = false ∧
      ∀ m, index ≤ m → m < k →
        currentNames.contains (noteName ++ " " ++ toString m) = true := by
  induction fuel generalizing index with
  | zero => simp [newDistinctNoteNameGo] at h
  | succ fuel ih =>
    by_cases hidx : MAX_RENAME_COUNT < index
    · simp [newDistinctNoteNameGo, hidx] at h
    · by_cases hc : currentNames.contains (noteName ++ " " ++ toString index) = true
      · have hcm : noteName ++ " " ++ toString index ∈ currentNames := by simpa using hc
        have h' : newDistinctNoteNameGo fuel noteName currentNames (index + 1) = .ok r := by
          simpa [newDistinctNoteNameGo, hidx, hcm] using h
        obtain ⟨k, hk1, hk2, hk3, hk4, hk5⟩ := ih (index + 1) h'
        refine ⟨k, by omega, hk2, hk3, hk4, ?_⟩
        intro m hm1 hm2
        rcases Nat.eq_or_lt_of_le hm1 with hm | hm
        · simpa [← hm] using hc
        · exact hk5 m hm hm2
      · have hcm : noteName ++ " " ++ toString index ∉ currentNames := by
          simpa using hc
        have hr : r = noteName ++ " " ++ toString index := by
          have := h
          simp [newDistinctNoteNameGo, hidx, hcm] at this
          exact this.symm
        refine ⟨index, le_refl _, by omega, hr, ?_, by omega⟩
        rw [hr]
        simpa using hcm

/-- If every suffix in `[index, MAX_RENAME_COUNT]` is taken, the resolver
fails with the rename-exhausted error (for any fuel). -/
theorem newDistinctNoteNameGo_error_of_all (fuel : Nat) (noteName : String)
    (currentNames : List String) (index : Nat)
    (h : ∀ k, index ≤ k → k ≤ MAX_RENAME_COUNT →
      currentNames.contains (noteName ++ " " ++ toString k) = true) :
    newDistinctNoteNameGo fuel noteName currentNames index =
      .error (.renameExhausted noteName) := by
  induction fuel generalizing index with
  | zero => simp [newDistinctNoteNameGo]
  | succ fuel ih =>
    by_cases hidx : MAX_RENAME_COUNT < index
    · simp [newDistinctNoteNameGo, hidx]
    · have hc : currentNames.contains (noteName ++ " " ++ toString index) = true :=
        h index (le_refl _) (by omega)
      have hcm : noteName ++ " " ++ toString index ∈ currentNames := by simpa using hc
      have := ih (index + 1) (fun k hk1 hk2 => h k (by omega) hk2)
      simp [newDistinctNoteNameGo, hidx, hcm, this]

/-- If `k` is the least free suffix in `[index, MAX_RENAME_COUNT]` and the
fuel covers the distance to `k`, the resolver returns exactly that name. -/
theorem newDistinctNoteNameGo_ok_of_least (fuel : Nat) (noteName : String)
    (currentNames : List String) (index k : Nat)
    (hfuel : k + 1 ≤ index + fuel) (h1 : index ≤ k) (h2 : k ≤ MAX_RENAME_COUNT)
    (hfree : currentNames.contains (noteName ++ " " ++ toString k) = false)
    (htaken : ∀ m, index ≤ m → m < k →
      currentNames.contains (noteName ++ " " ++ toString m) = true) :
    newDistinctNoteNameGo fuel noteName currentNames index =
      .ok (noteName ++ " " ++ toString k) := by
  induction fuel generalizing index with
  | zero => omega
  | succ fuel ih =>
    have hidx : ¬ MAX_RENAME_COUNT < index := by omega
    rcases Nat.eq_or_lt_of_le h1 with hik | hik
    · subst hik
      have hfm : noteName ++ " " ++ toString index ∉ currentNames := by simpa using hfree
      simp [newDistinctNoteNameGo, hidx, hfm]
    · have hcm : noteName ++ " " ++ toString index ∈ currentNames := by
        simpa using htaken index (le_refl _) hik
      have := ih (index + 1) (by omega) hik (fun m hm1 hm2 => htaken m (by omega) hm2)
      simp [newDistinctNoteNameGo, hidx, hcm, this]

/-- Claim C5: for every candidate name, list of used names, and starting
suffix, whenever `newDistinctNoteName` returns a name rather than throwing,
the returned name is not an element of the used list; and the result is
deterministic given the same inputs (two successful evaluations on the same
inputs agree). -/
theorem claim_C5_resolver_fresh_deterministic (noteName : String)
    (currentNames : List String) (index : Nat) :
    (∀ r, newDistinctNoteName noteName currentNames index = .ok r → r ∉ currentNames) ∧
    (∀ r₁ r₂, newDistinctNoteName noteName currentNames index = .ok r₁ →
      newDistinctNoteName noteName currentNames index = .ok r₂ → r₁ = r₂) := by
  constructor
  · intro r hr
    obtain ⟨k, _, _, _, hfree, _⟩ :=
      newDistinctNoteNameGo_ok_spec _ noteName currentNames index r hr
    simpa using hfree
  · intro r₁ r₂ h₁ h₂
    rw [h₁] at h₂
    exact (Except.ok.injEq _ _ ▸ h₂ : r₁ = r₂)

/-- Witness for C5 at a concrete input: on candidate `"A"`, used list
`["A 2"]` and start suffix `2` the resolver returns `"A 3"`, which is not
in the used list. -/
theorem claim_C5_witness :
    newDistinctNoteName "A" ["A 2"] 2 = .ok "A 3" ∧ "A 3" ∉ (["A 2"] : List String) :=
  ⟨rfl, (claim_C5_resolver_fresh_deterministic "A" ["A 2"] 2).1 "A 3" rfl⟩

/-- Claim C6: `newDistinctNoteName` appends `" n"` with `n` starting at the
given start suffix and incrementing by 1 on each retry, and fails with the
rename-exhausted error after the fixed bound of 100 (`MAX_RENAME_COUNT`,
a constant, not configurable): for every candidate and used list, either it
returns some `"candidate n"` with `startSuffix ≤ n ≤ 100` absent from the
used list (every earlier suffix being present), or all such names are in
the used list and it throws. -/
theorem claim_C6_resolver_suffix_sequence_and_bound (noteName : String)
    (currentNames : List String) (index : Nat) :
    (∃ n, index ≤ n ∧ n ≤ 100 ∧
      newDistinctNoteName noteName currentNames index = .ok (noteName ++ " " ++ toString n) ∧
      currentNames.contains (noteName ++ " " ++ toString n) = false ∧
      ∀ m, index ≤ m → m < n → currentNames.contains (noteName ++ " " ++ toString m) = true) ∨
    ((∀ n, index ≤ n → n ≤ 100 → currentNames.contains (noteName ++ " " ++ toString n) = true) ∧
      newDistinctNoteName noteName currentNames index = .error (.renameExhausted noteName)) := by
  have hmax : MAX_RENAME_COUNT = 100 := rfl
  by_cases hall : ∀ n, index ≤ n → n ≤ 100 →
      currentNames.contains (noteName ++ " " ++ toString n) = true
  · exact Or.inr ⟨hall, newDistinctNoteNameGo_error_of_all _ _ _ _
      (fun k h1 h2 => hall k h1 (hmax ▸ h2))⟩
  · push_neg at hall
    have hP : ∃ n, index ≤ n ∧ n ≤ 100 ∧
        currentNames.contains (noteName ++ " " ++ toString n) = false := by
      obtain ⟨n, h1, h2, h3⟩ := hall
      exact ⟨n, h1, h2, by simpa using h3⟩
    classical
    let k := Nat.find hP
    obtain ⟨hk1, hk2, hk3⟩ := Nat.find_spec hP
    refine Or.inl ⟨k, hk1, hk2, ?_, hk3, ?_⟩
    · refine newDistinctNoteNameGo_ok_of_least _ noteName currentNames index k
        ?_ hk1 (hmax ▸ hk2) hk3 ?_
      · omega
      · intro m hm1 hm2
        by_contra hc
        have hb : currentNames.contains (noteName ++ " " ++ toString m) = false := by
          simpa using hc
        exact Nat.find_min hP hm2 ⟨hm1, by omega, hb⟩
    · intro m hm1 hm2
      by_contra hc
      have hb : currentNames.contains (noteName ++ " " ++ toString m) = false := by
        simpa using hc
      exact Nat.find_min hP hm2 ⟨hm1, by omega, hb⟩

/-- Witness for C6 at a concrete input: from the dichotomy at candidate
`"A"`, used list `["A 2"]`, start suffix `2`, the resolver is forced to
return `"A 3"` (suffix 2 is taken, suffix 3 is free). -/
theorem claim_C6_witness :
    newDistinctNoteName "A" ["A 2"] 2 = .ok ("A" ++ " " ++ toString 3) := by
  rcases claim_C6_resolver_suffix_sequence_and_bound "A" ["A 2"] 2 with
    ⟨n, h1, _, h3, h4, h5⟩ | ⟨hall, _⟩
  · have hn2 : n ≠ 2 := by
      intro h
      rw [h] at h4
      exact absurd h4 (by decide)
    have hle : ¬ 3 < n := by
      intro hlt
      exact absurd (h5 3 (by omega) hlt) (by decide)
    have hn : n = 3 := by omega
    rw [hn] at h3
    exact h3
  · exact absurd (hall 3 (by omega) (by omega)) (by decide)

/-! ## String helpers shared by the planner (`src/quiver/index.ts`) -/

/-- JS `String.prototype.trim`, on character lists (whitespace modelled by
ASCII whitespace). -/
def jsTrimChars (cs : List Char) : List Char :=
  ((cs.dropWhile Char.isWhitespace).reverse.dropWhile Char.isWhitespace).reverse

/-- `sanitizeNoteTitle` from `src/quiver/index.ts`:
`title.trim().replace(/\//g, '-')`. -/
def sanitizeNoteTitle (title : String) : String :=
  String.mk ((jsTrimChars title.data).map (fun c => if c = '/' then '-' else c))

/-- Split a character list on `'/'` (JS `String.prototype.split('/')`). -/
def splitOnSlashGo : List Char → List Char → List (List Char)
  | acc, [] => [acc.reverse]
  | acc, c :: rest =>
    if c = '/' then acc.reverse :: splitOnSlashGo [] rest
    else splitOnSlashGo (c :: acc) rest

/-- `normalizePath` from `src/quiver/index.ts`:
`pathName.split('/').map(part => part.trim()).join('/')`. -/
def normalizePath (pathName : String) : String :=
  String.mk (List.intercalate ['/'] ((splitOnSlashGo [] pathName.data).map jsTrimChars))

/-- Node `path.join` on POSIX paths, modelled as joining the non-empty
segments with `'/'` (the source never passes segments needing `..`/`.`
normalization). -/
def pathJoin (segments : List String) : String :=
  String.intercalate "/" (segments.filter (fun s => s ≠ ""))

/-- Node `path.basename` for paths without a trailing separator: the part
after the last `'/'`. -/
def basename (p : String) : String :=
  String.mk ((p.data.reverse.takeWhile (fun c => c ≠ '/')).reverse)

/-! ## Data model (`src/quiver/type.ts`, fields as used by the source) -/

/-- Note metadata (`meta.json` of a `.qvnote`): the fields the planner
reads. -/
structure QvNoteMeta where
  title : String
  uuid : String
deriving Repr, DecidableEq

/-- A note, as the planner sees it. -/
structure QvNote where
  meta : QvNoteMeta
deriving Repr, DecidableEq

/-- Notebook metadata (`meta.json` of a `.qvnotebook`). -/
structure QvNotebookMeta where
  name : String
  uuid : String
deriving Repr, DecidableEq

/-- A notebook: metadata plus its notes. -/
structure QvNotebook where
  meta : QvNotebookMeta
  notes : List QvNote
deriving Repr, DecidableEq

/-- A node of the declared hierarchy (`meta.json` of the library): a uuid
and the ordered declared children. -/
inductive QvLibraryMeta where
  | node (uuid : String) (children : List QvLibraryMeta)

/-- The uuid of a hierarchy node. -/
def QvLibraryMeta.uuid : QvLibraryMeta → String
  | .node u _ => u

/-- The declared children of a hierarchy node. -/
def QvLibraryMeta.children : QvLibraryMeta → List QvLibraryMeta
  | .node _ cs => cs

/-- A library: its declared-hierarchy metadata and the notebooks discovered
on disk. -/
structure QvLibrary where
  meta : QvLibraryMeta
  notebooks : List QvNotebook

/-! ## The per-notebook note loop of the export planner

`transformQvLibraryToObsidian` (`src/quiver/index.ts`) runs the same loop
for hierarchy-walked notebooks (lines 160-173) and for orphan notebooks
(lines 189-201): for each note, first fail if the note's uuid already has
an entry in the global `newNotePathRecord`; then sanitize the title, and if
the name is already used in this notebook resolve it with
`newDistinctNoteName(name, noteNames, 2)`; record the name and insert
`uuid ↦ join(newPath, name + ".md")` into the global record. -/

/-- Name resolution for one note (`src/quiver/index.ts` lines 167-170):
keep the sanitized name unless it is already assigned in this notebook, in
which case call `newDistinctNoteName` with start suffix 2. -/
def resolveNoteName (noteNames : List String) (noteName0 : String) :
    Except PlanError String :=
  if noteNames.contains noteName0 then newDistinctNoteName noteName0 noteNames 2
  else .ok noteName0

/-- The note loop shared by both notebook branches of
`transformQvLibraryToObsidian`.  `noteNames` is the notebook-local list of
assigned names, `record` the global uuid-to-path record (as an ordered
association list).  Returns the extended name list and record. -/
def planNotebookNotes (newPath : String) :
    List QvNote → List String → List (String × String) →
    Except PlanError (List String × List (String × String))
  | [], noteNames, record => .ok (noteNames, record)
  | note :: rest, noteNames, record =>
    if (record.lookup note.meta.uuid).isSome then
      .error (.duplicateNoteId note.meta.uuid)
    else
      match resolveNoteName noteNames (sanitizeNoteTitle note.meta.title) with
      | .error e => .error e
      | .ok noteName =>
        planNotebookNotes newPath rest (noteNames ++ [noteName])
          (record ++ [(note.meta.uuid, pathJoin [newPath, noteName ++ ".md"])])

/-- The expected name sequence for `k` notes that all sanitize to `t`:
`t, "t 2", "t 3", …`. -/
def nameSeq (t : String) (k : Nat) : List String :=
  (List.range k).map (fun i => if i = 0 then t else t ++ " " ++ toString (i + 1))

/-! ## Arithmetic-on-strings facts used by the planner proofs -/

set_option maxRecDepth 10000 in
/-- `Nat.toString` is injective below 101 (all suffixes the resolver can
try). -/
theorem toString_nat_inj_le100 : ∀ m < 101, ∀ n < 101, toString m = toString n → m = n := by
  decide

set_option maxRecDepth 10000 in
/-- `Nat.toString` is nonempty below 101. -/
theorem toString_nat_ne_empty_le100 : ∀ n < 101, toString n ≠ "" := by decide

/-- A string never equals itself extended by a space and a suffix. -/
theorem ne_append_space_suffix (t x : String) : t ≠ t ++ " " ++ x := by
  intro h
  have hd := congrArg (fun s => s.data.length) h
  simp only [String.data_append] at hd
  simp at hd

/-- Cancellation for the `"t n"` names built by the resolver. -/
theorem append_space_suffix_inj (t x y : String)
    (h : t ++ " " ++ x = t ++ " " ++ y) : x = y := by
  have hd := congrArg String.data h
  simp only [String.data_append] at hd
  rw [List.append_assoc, List.append_assoc] at hd
  have := List.append_cancel_left (List.append_cancel_left hd)
  ext1
  exact this

/-- `lookup` in an association list succeeds exactly on the recorded keys. -/
theorem lookup_isSome_iff (l : List (String × String)) (a : String) :
    (l.lookup a).isSome = true ↔ a ∈ l.map Prod.fst := by
  induction l with
  | nil => simp
  | cons p tl ih =>
    obtain ⟨k, v⟩ := p
    by_cases h : a = k
    · subst h; simp [List.lookup]
    · have hbeq : (a == k) = false := by simpa using h
      simp [List.lookup, hbeq, ih, h]

/-- `lookup` misses exactly the keys not recorded. -/
theorem lookup_eq_none_iff (l : List (String × String)) (a : String) :
    l.lookup a = none ↔ a ∉ l.map Prod.fst := by
  rw [← lookup_isSome_iff]
  cases h : l.lookup a <;> simp [h]

theorem nameSeq_zero (t : String) : nameSeq t 0 = [] := by simp [nameSeq]

theorem nameSeq_one (t : String) : nameSeq t 1 = [t] := by
  simp [nameSeq, List.range_succ]

theorem nameSeq_succ (t : String) (k : Nat) :
    nameSeq t (k + 1) =
      nameSeq t k ++ [if k = 0 then t else t ++ " " ++ toString (k + 1)] := by
  simp [nameSeq, List.range_succ]

/-- The base name is the first element of every nonempty expected
sequence. -/
theorem mem_nameSeq_self (t : String) (i : Nat) (h : 1 ≤ i) : t ∈ nameSeq t i := by
  simp only [nameSeq, List.mem_map]
  exact ⟨0, by simpa using h, by simp⟩

/-- Every suffix `2 ≤ m ≤ i` is already in the expected sequence of length
`i`. -/
theorem contains_nameSeq_of_le (t : String) (i m : Nat) (h2 : 2 ≤ m) (hi : m ≤ i) :
    (nameSeq t i).contains (t ++ " " ++ toString m) = true := by
  have : t ++ " " ++ toString m ∈ nameSeq t i := by
    simp only [nameSeq, List.mem_map]
    refine ⟨m - 1, by simp; omega, ?_⟩
    have hm : ¬ m - 1 = 0 := by omega
    have hm1 : m - 1 + 1 = m := by omega
    simp [hm, hm1]
  simpa using this

/-- The next suffix `i + 1 ≤ 100` is not yet in the expected sequence of
length `i`. -/
theorem not_contains_nameSeq_next (t : String) (i : Nat) (h : i + 1 ≤ 100) :
    (nameSeq t i).contains (t ++ " " ++ toString (i + 1)) = false := by
  rw [Bool.eq_false_iff]
  intro hc
  have hmem : t ++ " " ++ toString (i + 1) ∈ nameSeq t i := by simpa using hc
  simp only [nameSeq, List.mem_map, List.mem_range] at hmem
  obtain ⟨j, hj, heq⟩ := hmem
  by_cases hj0 : j = 0
  · rw [if_pos hj0] at heq
    exact ne_append_space_suffix t (toString (i + 1)) heq
  · rw [if_neg hj0] at heq
    have := append_space_suffix_inj t (toString (j + 1)) (toString (i + 1)) heq
    have := toString_nat_inj_le100 (j + 1) (by omega) (i + 1) (by omega) this
    omega

/-- With the expected sequence of length `i ≥ 1` as the used list, the
resolver produces exactly the next expected name. -/
theorem newDistinctNoteName_nameSeq (t : String) (i : Nat) (h1 : 1 ≤ i)
    (h100 : i + 1 ≤ 100) :
    newDistinctNoteName t (nameSeq t i) 2 = .ok (t ++ " " ++ toString (i + 1)) := by
  have hmax : MAX_RENAME_COUNT = 100 := rfl
  refine newDistinctNoteNameGo_ok_of_least _ t (nameSeq t i) 2 (i + 1)
    (by rw [hmax]; omega) (by omega) (by rw [hmax]; omega)
    (not_contains_nameSeq_next t i h100) ?_
  intro m hm1 hm2
  exact contains_nameSeq_of_le t i m hm1 (by omega)

/-- The note loop never duplicates an assigned name: starting from a
duplicate-free notebook-local name list, a successful run returns a
duplicate-free name list. -/
theorem planNotebookNotes_names_nodup (newPath : String) :
    ∀ (notes : List QvNote) (noteNames : List String) (record : List (String × String))
      (names' : List String) (record' : List (String × String)),
      noteNames.Nodup →
      planNotebookNotes newPath notes noteNames record = .ok (names', record') →
      names'.Nodup := by
  intro notes
  induction notes with
  | nil =>
    intro noteNames record names' record' hnd h
    simp [planNotebookNotes] at h
    rw [← h.1]
    exact hnd
  | cons note rest ih =>
    intro noteNames record names' record' hnd h
    by_cases hlk : (record.lookup note.meta.uuid).isSome
    · simp [planNotebookNotes, hlk] at h
    · cases hres : resolveNoteName noteNames (sanitizeNoteTitle note.meta.title) with
      | error e => simp [planNotebookNotes, hlk, hres] at h
      | ok noteName =>
        have hfresh : noteName ∉ noteNames := by
          by_cases hc : noteNames.contains (sanitizeNoteTitle note.meta.title) = true
          · rw [resolveNoteName, if_pos hc] at hres
            obtain ⟨k, _, _, _, hfree, _⟩ :=
              newDistinctNoteNameGo_ok_spec _ _ noteNames 2 noteName hres
            simpa using hfree
          · rw [resolveNoteName, if_neg hc] at hres
            have : noteName = sanitizeNoteTitle note.meta.title := by
              simpa using hres.symm
            rw [this]
            simpa using hc
        have h' : planNotebookNotes newPath rest (noteNames ++ [noteName])
            (record ++ [(note.meta.uuid,
              pathJoin [newPath, noteName ++ ".md"])]) = .ok (names', record') := by
          simpa [planNotebookNotes, hlk, hres] using h
        refine ih (noteNames ++ [noteName]) _ names' record' ?_ h'
        simp [List.nodup_append, hnd, hfresh]

/-- The note loop on a notebook whose notes all sanitize to the same title
`t`, with fresh pairwise-distinct uuids, extends the expected name sequence
one note at a time. -/
theorem planNotebookNotes_sameTitle (newPath t : String) :
    ∀ (rest : List QvNote) (i : Nat) (record : List (String × String)),
      i + rest.length ≤ 100 →
      (∀ n ∈ rest, sanitizeNoteTitle n.meta.title = t) →
      (rest.map (fun n => n.meta.uuid)).Nodup →
      (∀ n ∈ rest, record.lookup n.meta.uuid = none) →
      ∃ record', planNotebookNotes newPath rest (nameSeq t i) record =
        .ok (nameSeq t (i + rest.length), record') := by
  intro rest
  induction rest with
  | nil =>
    intro i record _ _ _ _
    exact ⟨record, by simp [planNotebookNotes]⟩
  | cons note rest ih =>
    intro i record hlen htitle hnodup hfresh
    simp only [List.length_cons] at hlen
    have hnodup' : (∀ x ∈ rest, ¬ x.meta.uuid = note.meta.uuid) ∧
        (rest.map (fun n => n.meta.uuid)).Nodup := by
      simpa using hnodup
    have hlk : (record.lookup note.meta.uuid).isSome = false := by
      rw [hfresh note (by simp)]
      rfl
    have hT : sanitizeNoteTitle note.meta.title = t := htitle note (by simp)
    have hfresh' : ∀ nm, ∀ n ∈ rest,
        (record ++ [(note.meta.uuid, (nm : String))]).lookup n.meta.uuid = none := by
      intro nm n hn
      rw [lookup_eq_none_iff]
      simp only [List.map_append, List.map_cons, List.map_nil, List.mem_append,
        List.mem_cons, List.not_mem_nil]
      push_neg
      refine ⟨?_, ?_, fun h => h.elim⟩
      · rw [← lookup_eq_none_iff]
        exact hfresh n (by simp [hn])
      · intro he
        exact hnodup'.1 n hn he
    by_cases hi : i = 0
    · subst hi
      have hresolve : resolveNoteName (nameSeq t 0) t = .ok t := by
        simp [resolveNoteName, nameSeq_zero]
      obtain ⟨record', hrec⟩ := ih 1
        (record ++ [(note.meta.uuid, pathJoin [newPath, t ++ ".md"])])
        (by omega) (fun n hn => htitle n (by simp [hn])) hnodup'.2
        (hfresh' _)
      refine ⟨record', ?_⟩
      have hstep : planNotebookNotes newPath (note :: rest) (nameSeq t 0) record =
          planNotebookNotes newPath rest (nameSeq t 0 ++ [t])
            (record ++ [(note.meta.uuid, pathJoin [newPath, t ++ ".md"])]) := by
        simp [planNotebookNotes, hlk, hT, hresolve]
      rw [hstep, nameSeq_zero]
      simp only [List.nil_append, List.length_cons]
      rw [← nameSeq_one]
      rw [show (0 + (rest.length + 1)) = 1 + rest.length by omega]
      exact hrec
    · have h1 : 1 ≤ i := by omega
      have hcont : (nameSeq t i).contains t = true := by
        simpa using mem_nameSeq_self t i h1
      have hresolve : resolveNoteName (nameSeq t i) t =
          .ok (t ++ " " ++ toString (i + 1)) := by
        rw [resolveNoteName, if_pos hcont]
        exact newDistinctNoteName_nameSeq t i h1 (by omega)
      obtain ⟨record', hrec⟩ := ih (i + 1)
        (record ++ [(note.meta.uuid,
          pathJoin [newPath, (t ++ " " ++ toString (i + 1)) ++ ".md"])])
        (by omega) (fun n hn => htitle n (by simp [hn])) hnodup'.2
        (hfresh' _)
      refine ⟨record', ?_⟩
      have hstep : planNotebookNotes newPath (note :: rest) (nameSeq t i) record =
          planNotebookNotes newPath rest (nameSeq t i ++ [t ++ " " ++ toString (i + 1)])
            (record ++ [(note.meta.uuid,
              pathJoin [newPath, (t ++ " " ++ toString (i + 1)) ++ ".md"])]) := by
        simp [planNotebookNotes, hlk, hT, hresolve]
      rw [hstep]
      have hseq : nameSeq t i ++ [t ++ " " ++ toString (i + 1)] = nameSeq t (i + 1) := by
        rw [nameSeq_succ, if_neg hi]
      rw [hseq]
      simp only [List.length_cons]
      rw [show (i + (rest.length + 1)) = (i + 1) + rest.length by omega]
      exact hrec

/-- Counterexample input for C7: a notebook whose note list sanitizes to
titles `T`, `T 2`, `T` — the two `T`-titled notes are a same-title group,
but the slot `"T 2"` is occupied by the differently-titled middle note. -/
def exC7Notes : List QvNote :=
  [⟨⟨"T", "u1"⟩⟩, ⟨⟨"T 2", "u2"⟩⟩, ⟨⟨"T", "u3"⟩⟩]

/-- Counterexample to claim C7 as stated: in `exC7Notes` the notes that
sanitize to the same title `"T"` (uuids `u1`, `u3`) receive `T.md` and
`T 3.md`, not the claimed first-seen sequence `T.md, T 2.md`: the second
member of the group gets suffix 3 because the literal title `"T 2"` of a
different note already occupies the `"T 2"` slot. -/
theorem claim_C7_counterexample :
    planNotebookNotes "nb" exC7Notes [] [] =
      .ok (["T", "T 2", "T 3"],
        [("u1", "nb/T.md"), ("u2", "nb/T 2.md"), ("u3", "nb/T 3.md")]) ∧
    ("T 3" : String) ≠ "T 2" := ⟨rfl, by decide⟩

/-- Claim C7 (amended): within one notebook the assigned names are pairwise
distinct, and each colliding note receives `"Name n"` for the smallest
`n ≥ 2` not already assigned in the notebook; in particular, when all the
notebook's notes sanitize to the same title (so no other note occupies a
`"Name n"` slot) the assigned names follow exactly the first-seen
sequence `Name, "Name 2", "Name 3", …`. -/
theorem claim_C7_notebook_filename_sequence :
    (∀ (newPath : String) (notes : List QvNote) (names' : List String)
        (record' : List (String × String)),
      planNotebookNotes newPath notes [] [] = .ok (names', record') → names'.Nodup) ∧
    (∀ (newPath t : String) (notes : List QvNote),
      notes.length ≤ 100 →
      (∀ n ∈ notes, sanitizeNoteTitle n.meta.title = t) →
      (notes.map (fun n => n.meta.uuid)).Nodup →
      ∃ record', planNotebookNotes newPath notes [] [] =
        .ok (nameSeq t notes.length, record')) := by
  constructor
  · intro newPath notes names' record' h
    exact planNotebookNotes_names_nodup newPath notes [] [] names' record' (by simp) h
  · intro newPath t notes hlen htitle hnodup
    have := planNotebookNotes_sameTitle newPath t notes 0 [] (by omega) htitle hnodup
      (fun n _ => rfl)
    simpa using this

/-- Witness input for C7: three notes with the same title `"T"`. -/
def wC7Notes : List QvNote :=
  [⟨⟨"T", "v1"⟩⟩, ⟨⟨"T", "v2"⟩⟩, ⟨⟨"T", "v3"⟩⟩]

/-- Witness for C7 at a concrete input: three same-titled notes receive
exactly `T.md`, `T 2.md`, `T 3.md`, and the name list is duplicate-free. -/
theorem claim_C7_witness :
    planNotebookNotes "nb" wC7Notes [] [] =
      .ok (nameSeq "T" 3,
        [("v1", "nb/T.md"), ("v2", "nb/T 2.md"), ("v3", "nb/T 3.md")]) ∧
    (nameSeq "T" 3).Nodup := by
  obtain ⟨record', hrec⟩ := claim_C7_notebook_filename_sequence.2 "nb" "T" wC7Notes
    (by decide) (by decide) (by decide)
  exact ⟨rfl, claim_C7_notebook_filename_sequence.1 "nb" wC7Notes _ record' hrec⟩

/-! ## The declared-hierarchy walkers

`walkThroughNotebookHierarchty` (`src/quiver/quiver_parse.ts`, the typo is
the source's) recursively visits a declared node and then its children,
passing the root-to-parent uuid chain; it is embedded as the list of
`(uuid, parents)` callback invocations, in call order.  The class-level
walker of `src/quiver/index.ts` (lines 221-251) then validates every visit
against the discovered notebook set: visit skipped with a console warning
when the visited uuid or any ancestor uuid has no on-disk notebook. -/

/-- The recursive hierarchy walk of `src/quiver/quiver_parse.ts`: visit the
node, then each declared child with the uuid chain extended.  Returns the
`(notebookName, parents)` callback invocations in order. -/
def walkThroughNotebookHierarchty (libraryMeta : QvLibraryMeta) (parents : List String) :
    List (String × List String) :=
  match libraryMeta with
  | .node uuid children => (uuid, parents) :: go children (parents ++ [uuid])
where
  go : List QvLibraryMeta → List String → List (String × List String)
  | [], _ => []
  | c :: rest, ps => walkThroughNotebookHierarchty c ps ++ go rest ps

/-- Diagnostics of the class-level walker (`console.warn` lines 233 and
242 of `src/quiver/index.ts`). -/
inductive WalkWarning where
  | notebookNotFound (uuid : String)
  | parentNotFound (parentUuid : String) (notebookUuid : String)
deriving Repr, DecidableEq

/-- The `notebooks[uuid]` record of the class-level walker, built by
`forEach` assignment (a later notebook with the same uuid overwrites an
earlier one). -/
def lookupNotebook (notebooks : List QvNotebook) (uuid : String) : Option QvNotebook :=
  (notebooks.filter (fun nb => nb.meta.uuid = uuid)).getLast?

/-- Resolve the ancestor uuid chain of one visit against the discovered
set, in order; fails on the first ancestor with no on-disk notebook
(line 239-246 of `src/quiver/index.ts`). -/
def validateParents (notebooks : List QvNotebook) (notebookName : String) :
    List String → Except WalkWarning (List QvNotebook)
  | [] => .ok []
  | name :: rest =>
    match lookupNotebook notebooks name with
    | none => .error (.parentNotFound name notebookName)
    | some parent =>
      match validateParents notebooks notebookName rest with
      | .ok ps => .ok (parent :: ps)
      | .error w => .error w

/-- Validate one visit of the recursive walk: resolve the visited uuid and
all its ancestors, or report why the visit is skipped. -/
def processVisit (notebooks : List QvNotebook) (visit : String × List String) :
    Except WalkWarning (QvNotebook × List QvNotebook) :=
  match lookupNotebook notebooks visit.1 with
  | none => .error (.notebookNotFound visit.1)
  | some nb =>
    match validateParents notebooks visit.1 visit.2 with
    | .ok parents => .ok (nb, parents)
    | .error w => .error w

/-- Run `processVisit` over the visit list, separating the surviving
callback invocations from the warnings (both in visit order). -/
def collectInvocations (notebooks : List QvNotebook) :
    List (String × List String) →
    List (QvNotebook × List QvNotebook) × List WalkWarning
  | [] => ([], [])
  | v :: rest =>
    let r := collectInvocations notebooks rest
    match processVisit notebooks v with
    | .ok inv => (inv :: r.1, r.2)
    | .error w => (r.1, w :: r.2)

/-- All visits of the recursive walk over the library's declared top-level
children (`this.library.meta.children?.forEach` with an empty parent
chain). -/
def libraryVisits (library : QvLibrary) : List (String × List String) :=
  (library.meta.children.map (fun m => walkThroughNotebookHierarchty m [])).flatten

/-- The class-level walker: the validated callback invocations and the
warnings it prints. -/
def quiverHierarchyWalk (library : QvLibrary) :
    List (QvNotebook × List QvNotebook) × List WalkWarning :=
  collectInvocations library.notebooks (libraryVisits library)

/-- `findInMeta` inside `notebookHasChildren` (`src/quiver/index.ts` lines
88-101): locate the node with the given uuid (pre-order) and report
whether it has declared children; `none` when the uuid is absent. -/
def findInMeta (uuid : String) (meta : QvLibraryMeta) : Option Bool :=
  match meta with
  | .node u children =>
    if u = uuid then some (decide (0 < children.length))
    else go children
where
  go : List QvLibraryMeta → Option Bool
  | [] => none
  | c :: rest =>
    match findInMeta uuid c with
    | some b => some b
    | none => go rest

/-- `notebookHasChildren` from `src/quiver/index.ts`: true exactly when
`findInMeta` finds the uuid and it has at least one declared child. -/
def notebookHasChildren (libraryMeta : QvLibraryMeta) (uuid : String) : Bool :=
  match findInMeta uuid libraryMeta with
  | some true => true
  | _ => false

/-! ## The export planner (planning phase of `transformQvLibraryToObsidian`) -/

/-- The walked-notebook loop (`src/quiver/index.ts` lines 140-175): for
every surviving invocation, skip notebooks with neither notes nor declared
children, compute the output directory from the ancestor names, and run the
note loop when the notebook has notes. -/
def planWalked (outputQuiverPath : String) (libraryMeta : QvLibraryMeta) :
    List (QvNotebook × List QvNotebook) → List (String × String) →
    Except PlanError (List (String × String))
  | [], record => .ok record
  | (notebook, parents) :: rest, record =>
    let hasNotes := decide (0 < notebook.notes.length)
    let hasChildren := notebookHasChildren libraryMeta notebook.meta.uuid
    if !hasNotes && !hasChildren then planWalked outputQuiverPath libraryMeta rest record
    else
      let newPath := pathJoin (outputQuiverPath ::
        (parents.map (fun p => normalizePath p.meta.name) ++
          [normalizePath notebook.meta.name]))
      if hasNotes then
        match planNotebookNotes newPath notebook.notes [] record with
        | .error e => .error e
        | .ok (_, record') => planWalked outputQuiverPath libraryMeta rest record'
      else planWalked outputQuiverPath libraryMeta rest record

/-- The orphan-notebook loop (`src/quiver/index.ts` lines 180-203): every
discovered notebook not reached by the walk, skipped when empty, otherwise
planned directly under the output root. -/
def planOrphans (outputQuiverPath : String) (notebooksInMeta : List String) :
    List QvNotebook → List (String × String) →
    Except PlanError (List (String × String))
  | [], record => .ok record
  | notebook :: rest, record =>
    if notebooksInMeta.contains notebook.meta.uuid then
      planOrphans outputQuiverPath notebooksInMeta rest record
    else if notebook.notes.length = 0 then
      planOrphans outputQuiverPath notebooksInMeta rest record
    else
      let newPath := pathJoin [outputQuiverPath, normalizePath notebook.meta.name]
      match planNotebookNotes newPath notebook.notes [] record with
      | .error e => .error e
      | .ok (_, record') => planOrphans outputQuiverPath notebooksInMeta rest record'

/-- The planning phase of `transformQvLibraryToObsidian`: build the global
uuid-to-path record over the walked notebooks, then over the orphan
notebooks. -/
def transformQvLibraryToObsidian (library : QvLibrary) (outputPath : String) :
    Except PlanError (List (String × String)) :=
  let outputQuiverPath := pathJoin [outputPath, "quiver"]
  let invocations := (quiverHierarchyWalk library).1
  let notebooksInMeta := invocations.map (fun inv => inv.1.meta.uuid)
  match planWalked outputQuiverPath library.meta invocations [] with
  | .error e => .error e
  | .ok record =>
    planOrphans outputQuiverPath notebooksInMeta library.notebooks record

/-- The uuids of all notes the planner iterates over: notes of walked
(validated) notebooks in visit order, then notes of the notebooks not
reached by the walk. -/
def processedNoteUuids (library : QvLibrary) : List String :=
  ((quiverHierarchyWalk library).1.map
    (fun inv => inv.1.notes.map (fun n => n.meta.uuid))).flatten ++
  ((library.notebooks.filter (fun nb =>
      !((quiverHierarchyWalk library).1.map (fun inv => inv.1.meta.uuid)).contains
        nb.meta.uuid)).map
    (fun nb => nb.notes.map (fun n => n.meta.uuid))).flatten

/-- Failing input for C3: a declared hierarchy in which the id `"X"`
appears again inside its own subtree (its ancestor chain when visited the
second time already contains `"X"`). -/
def exC3Meta : QvLibraryMeta := .node "X" [.node "X" []]

/-- Claim C3, code evaluated at the failing input: the hierarchy walk of
`src/quiver/quiver_parse.ts` has no cycle guard — on a tree whose node id
already appears in its own ancestor chain it simply visits both nodes
(the second with `"X"` in its own ancestor list) and completes normally;
no structural Hierarchy error exists anywhere in its type or behavior,
contradicting the claim that such input raises one. -/
theorem claim_C3_cycle_not_detected :
    walkThroughNotebookHierarchty exC3Meta [] = [("X", []), ("X", ["X"])] := rfl

/-! ## Lemmas about the class-level walker, for claim C4 -/

theorem lookupNotebook_eq_none (notebooks : List QvNotebook) (u : String)
    (h : u ∉ notebooks.map (fun nb => nb.meta.uuid)) :
    lookupNotebook notebooks u = none := by
  rw [lookupNotebook]
  have hfil : notebooks.filter (fun nb => decide (nb.meta.uuid = u)) = [] := by
    rw [List.filter_eq_nil_iff]
    intro nb hnb hdec
    have : nb.meta.uuid = u := by simpa using hdec
    exact h (this ▸ List.mem_map_of_mem _ hnb)
  rw [hfil]
  rfl

theorem lookupNotebook_uuid (notebooks : List QvNotebook) (u : String) (nb : QvNotebook)
    (h : lookupNotebook notebooks u = some nb) : nb.meta.uuid = u := by
  rw [lookupNotebook] at h
  obtain ⟨hne, hx⟩ := List.mem_getLast?_eq_getLast h
  have hmem : nb ∈ notebooks.filter (fun nb => decide (nb.meta.uuid = u)) := by
    rw [hx]
    exact List.getLast_mem hne
  simpa using (List.mem_filter.mp hmem).2

theorem validateParents_ok_spec (notebooks : List QvNotebook) (nbName : String) :
    ∀ (names : List String) (ps : List QvNotebook),
      validateParents notebooks nbName names = .ok ps →
      ps.map (fun p => p.meta.uuid) = names ∧
      ∀ p ∈ ps, lookupNotebook notebooks p.meta.uuid = some p := by
  intro names
  induction names with
  | nil =>
    intro ps h
    simp [validateParents] at h
    subst h
    exact ⟨rfl, by simp⟩
  | cons name rest ih =>
    intro ps h
    cases hlk : lookupNotebook notebooks name with
    | none => simp [validateParents, hlk] at h
    | some parent =>
      cases hv : validateParents notebooks nbName rest with
      | error w => simp [validateParents, hlk, hv] at h
      | ok ps' =>
        have hps : parent :: ps' = ps := by simpa [validateParents, hlk, hv] using h
        obtain ⟨ih1, ih2⟩ := ih ps' hv
        have hu : parent.meta.uuid = name := lookupNotebook_uuid _ _ _ hlk
        rw [← hps]
        constructor
        · simp [hu, ih1]
        · intro p hp
          rcases List.mem_cons.mp hp with hp | hp
          · rw [hp, hu]
            exact hlk
          · exact ih2 p hp

theorem processVisit_ok (notebooks : List QvNotebook) (v : String × List String)
    (inv : QvNotebook × List QvNotebook) (h : processVisit notebooks v = .ok inv) :
    lookupNotebook notebooks v.1 = some inv.1 ∧
    validateParents notebooks v.1 v.2 = .ok inv.2 := by
  rw [processVisit] at h
  cases hlk : lookupNotebook notebooks v.1 with
  | none => rw [hlk] at h; simp at h
  | some nb =>
    rw [hlk] at h
    cases hv : validateParents notebooks v.1 v.2 with
    | error w => rw [hv] at h; simp at h
    | ok parents =>
      rw [hv] at h
      have hinv : inv = (nb, parents) := (Except.ok.inj h).symm
      subst hinv
      exact ⟨rfl, rfl⟩

theorem mem_collectInvocations (notebooks : List QvNotebook) :
    ∀ (vs : List (String × List String)) (inv : QvNotebook × List QvNotebook),
      inv ∈ (collectInvocations notebooks vs).1 →
      ∃ v ∈ vs, processVisit notebooks v = .ok inv := by
  intro vs
  induction vs with
  | nil => intro inv h; simp [collectInvocations] at h
  | cons v rest ih =>
    intro inv h
    cases hp : processVisit notebooks v with
    | ok inv' =>
      simp only [collectInvocations, hp] at h
      rcases List.mem_cons.mp h with h | h
      · exact ⟨v, by simp, by rw [hp, h]⟩
      · obtain ⟨v', hv', hpv⟩ := ih inv h
        exact ⟨v', by simp [hv'], hpv⟩
    | error w =>
      simp only [collectInvocations, hp] at h
      obtain ⟨v', hv', hpv⟩ := ih inv h
      exact ⟨v', by simp [hv'], hpv⟩

theorem warning_mem_collectInvocations (notebooks : List QvNotebook) :
    ∀ (vs : List (String × List String)) (v : String × List String) (w : WalkWarning),
      v ∈ vs → processVisit notebooks v = .error w →
      w ∈ (collectInvocations notebooks vs).2 := by
  intro vs
  induction vs with
  | nil => intro v w hv _; simp at hv
  | cons v' rest ih =>
    intro v w hv hp
    rcases List.mem_cons.mp hv with hv | hv
    · subst hv
      simp [collectInvocations, hp]
    · have hmem := ih v w hv hp
      cases hp' : processVisit notebooks v' with
      | ok inv' => simpa [collectInvocations, hp'] using hmem
      | error w' => simp [collectInvocations, hp', hmem]

theorem mem_walkGo (cs : List QvLibraryMeta) (ps : List String) (v : String × List String) :
    v ∈ walkThroughNotebookHierarchty.go cs ps →
    ∃ c ∈ cs, v ∈ walkThroughNotebookHierarchty c ps := by
  induction cs with
  | nil => intro h; simp [walkThroughNotebookHierarchty.go] at h
  | cons c rest ih =>
    intro h
    simp only [walkThroughNotebookHierarchty.go] at h
    rcases List.mem_append.mp h with h | h
    · exact ⟨c, by simp, h⟩
    · obtain ⟨c', h1, h2⟩ := ih h
      exact ⟨c', by simp [h1], h2⟩

theorem walk_parents_prefix (n : Nat) :
    ∀ (t : QvLibraryMeta), sizeOf t ≤ n → ∀ (ps : List String) (v : String × List String),
      v ∈ walkThroughNotebookHierarchty t ps → ps <+: v.2 := by
  induction n with
  | zero =>
    intro t ht
    exfalso
    cases t with
    | node u cs => simp at ht
  | succ n ih =>
    intro t ht ps v hv
    cases t with
    | node u cs =>
      simp only [walkThroughNotebookHierarchty] at hv
      rcases List.mem_cons.mp hv with h | h
      · subst h
        exact List.prefix_refl ps
      · obtain ⟨c, hc, hcw⟩ := mem_walkGo cs (ps ++ [u]) v h
        have hsz : sizeOf c ≤ n := by
          have h1 := List.sizeOf_lt_of_mem hc
          have h2 : sizeOf (QvLibraryMeta.node u cs) = 1 + sizeOf u + sizeOf cs := by simp
          omega
        have := ih c hsz (ps ++ [u]) v hcw
        exact (List.prefix_append ps [u]).trans this

theorem walk_visit_shape (s : QvLibraryMeta) (ps : List String) (v : String)
    (q : List String) (h : (v, q) ∈ walkThroughNotebookHierarchty s ps) :
    (v = s.uuid ∧ q = ps) ∨ s.uuid ∈ q := by
  cases s with
  | node u cs =>
    simp only [QvLibraryMeta.uuid]
    simp only [walkThroughNotebookHierarchty] at h
    rcases List.mem_cons.mp h with h | h
    · left
      exact ⟨(Prod.ext_iff.mp h).1, (Prod.ext_iff.mp h).2⟩
    · right
      obtain ⟨c, hc, hcw⟩ := mem_walkGo cs (ps ++ [u]) (v, q) h
      have hpre := walk_parents_prefix (sizeOf c) c (le_refl _) (ps ++ [u]) (v, q) hcw
      exact hpre.sublist.subset (by simp)

/-- Claim C4: for every declared hierarchy node whose uuid `u` has no
corresponding on-disk notebook, (1) no surviving callback invocation is for
a notebook with uuid `u` nor has `u` anywhere in its validated ancestor
chain — combined with (3), which shows every visit inside the declared
subtree of a `u`-node either is that node's own visit or carries `u` in its
ancestor chain, this means neither the node nor any node of its declared
subtree is visited, so none of them contributes entries to the export
plan; and (2) every visit of `u` itself emits the missing-notebook
diagnostic.  Processing is a total function, so it continues without
crashing. -/
theorem claim_C4_missing_notebook_skipped (library : QvLibrary) (u : String)
    (hu : u ∉ library.notebooks.map (fun nb => nb.meta.uuid)) :
    (∀ inv ∈ (quiverHierarchyWalk library).1,
        inv.1.meta.uuid ≠ u ∧ u ∉ inv.2.map (fun p => p.meta.uuid)) ∧
    (∀ ps, (u, ps) ∈ libraryVisits library →
        WalkWarning.notebookNotFound u ∈ (quiverHierarchyWalk library).2) ∧
    (∀ (s : QvLibraryMeta) (ps : List String) (v : String) (q : List String),
        (v, q) ∈ walkThroughNotebookHierarchty s ps →
        (v = s.uuid ∧ q = ps) ∨ s.uuid ∈ q) := by
  have hnone : lookupNotebook library.notebooks u = none :=
    lookupNotebook_eq_none _ _ hu
  refine ⟨?_, ?_, fun s ps v q h => walk_visit_shape s ps v q h⟩
  · intro inv hinv
    obtain ⟨v, _, hok⟩ := mem_collectInvocations _ _ inv hinv
    obtain ⟨hlk, hval⟩ := processVisit_ok _ _ _ hok
    constructor
    · intro he
      have hvu : inv.1.meta.uuid = v.1 := lookupNotebook_uuid _ _ _ hlk
      rw [he] at hvu
      rw [← hvu] at hlk
      rw [hnone] at hlk
      exact Option.noConfusion hlk
    · intro hm
      obtain ⟨p, hp, hpu⟩ := List.mem_map.mp hm
      have hpl := (validateParents_ok_spec _ _ _ _ hval).2 p hp
      rw [hpu] at hpl
      rw [hnone] at hpl
      exact Option.noConfusion hpl
  · intro ps hvmem
    have hperr : processVisit library.notebooks (u, ps) =
        .error (.notebookNotFound u) := by
      simp [processVisit, hnone]
    exact warning_mem_collectInvocations _ _ _ _ hvmem hperr

/-- Witness input for C4: the declared hierarchy references `"M"` (with
declared child `"C"`), but only notebook `"C"` exists on disk. -/
def wC4Lib : QvLibrary :=
  ⟨.node "root" [.node "M" [.node "C" []]],
    [⟨⟨"C book", "C"⟩, [⟨⟨"note", "n1"⟩⟩]⟩]⟩

/-- Witness for C4 at a concrete input: the missing notebook `"M"` gets a
diagnostic, and no callback invocation survives (so neither `"M"` nor its
declared descendant `"C"` is visited). -/
theorem claim_C4_witness :
    WalkWarning.notebookNotFound "M" ∈ (quiverHierarchyWalk wC4Lib).2 ∧
    (quiverHierarchyWalk wC4Lib).1 = [] :=
  ⟨(claim_C4_missing_notebook_skipped wC4Lib "M" (by decide)).2.1 [] (by decide), rfl⟩

/-! ## Lemmas about the global uuid-to-path record, for claim C2 -/

/-- A successful note loop appends exactly the processed notes' uuids to
the global record's keys. -/
theorem planNotebookNotes_ok_keys (newPath : String) :
    ∀ (notes : List QvNote) (noteNames : List String) (record : List (String × String))
      (names' : List String) (record' : List (String × String)),
      planNotebookNotes newPath notes noteNames record = .ok (names', record') →
      record'.map Prod.fst =
        record.map Prod.fst ++ notes.map (fun n => n.meta.uuid) := by
  intro notes
  induction notes with
  | nil =>
    intro noteNames record names' record' h
    simp [planNotebookNotes] at h
    rw [← h.2]
    simp
  | cons note rest ih =>
    intro noteNames record names' record' h
    by_cases hlk : (record.lookup note.meta.uuid).isSome
    · simp [planNotebookNotes, hlk] at h
    · cases hres : resolveNoteName noteNames (sanitizeNoteTitle note.meta.title) with
      | error e => simp [planNotebookNotes, hlk, hres] at h
      | ok noteName =>
        have h' : planNotebookNotes newPath rest (noteNames ++ [noteName])
            (record ++ [(note.meta.uuid,
              pathJoin [newPath, noteName ++ ".md"])]) = .ok (names', record') := by
          simpa [planNotebookNotes, hlk, hres] using h
        have := ih _ _ _ _ h'
        rw [this]
        simp

/-- A successful note loop keeps the global record's keys duplicate-free. -/
theorem planNotebookNotes_ok_keys_nodup (newPath : String) :
    ∀ (notes : List QvNote) (noteNames : List String) (record : List (String × String))
      (names' : List String) (record' : List (String × String)),
      (record.map Prod.fst).Nodup →
      planNotebookNotes newPath notes noteNames record = .ok (names', record') →
      (record'.map Prod.fst).Nodup := by
  intro notes
  induction notes with
  | nil =>
    intro noteNames record names' record' hnd h
    simp [planNotebookNotes] at h
    rw [← h.2]
    exact hnd
  | cons note rest ih =>
    intro noteNames record names' record' hnd h
    by_cases hlk : (record.lookup note.meta.uuid).isSome
    · simp [planNotebookNotes, hlk] at h
    · cases hres : resolveNoteName noteNames (sanitizeNoteTitle note.meta.title) with
      | error e => simp [planNotebookNotes, hlk, hres] at h
      | ok noteName =>
        have h' : planNotebookNotes newPath rest (noteNames ++ [noteName])
            (record ++ [(note.meta.uuid,
              pathJoin [newPath, noteName ++ ".md"])]) = .ok (names', record') := by
          simpa [planNotebookNotes, hlk, hres] using h
        refine ih _ _ _ _ ?_ h'
        have hnotin : note.meta.uuid ∉ record.map Prod.fst := by
          rw [← lookup_eq_none_iff]
          cases hl : record.lookup note.meta.uuid with
          | none => rfl
          | some v => rw [hl] at hlk; simp at hlk
        simp [List.nodup_append, hnd, hnotin]

/-- A successful walked-notebook pass appends the walked notebooks' note
uuids to the record's keys, in visit order. -/
theorem planWalked_ok_keys (outputQuiverPath : String) (libraryMeta : QvLibraryMeta) :
    ∀ (invs : List (QvNotebook × List QvNotebook)) (record record' : List (String × String)),
      planWalked outputQuiverPath libraryMeta invs record = .ok record' →
      record'.map Prod.fst = record.map Prod.fst ++
        (invs.map (fun inv => inv.1.notes.map (fun n => n.meta.uuid))).flatten := by
  intro invs
  induction invs with
  | nil =>
    intro record record' h
    simp [planWalked] at h
    rw [← h]
    simp
  | cons inv rest ih =>
    intro record record' h
    obtain ⟨notebook, parents⟩ := inv
    by_cases hn : 0 < notebook.notes.length
    · have hnotes : (decide (0 < notebook.notes.length)) = true := by simpa using hn
      cases hp : planNotebookNotes (pathJoin (outputQuiverPath ::
          (parents.map (fun p => normalizePath p.meta.name) ++
            [normalizePath notebook.meta.name]))) notebook.notes [] record with
      | error e => simp [planWalked, hnotes, hp] at h
      | ok pr =>
        obtain ⟨names₁, record₁⟩ := pr
        have h' : planWalked outputQuiverPath libraryMeta rest record₁ = .ok record' := by
          simpa [planWalked, hnotes, hp] using h
        have hk := planNotebookNotes_ok_keys _ _ _ _ _ _ hp
        rw [ih _ _ h', hk]
        simp
    · have hempty : notebook.notes = [] := by
        cases hnn : notebook.notes with
        | nil => rfl
        | cons a l => rw [hnn] at hn; simp at hn
      have hnotes : (decide (0 < notebook.notes.length)) = false := by simpa using hn
      by_cases hch : notebookHasChildren libraryMeta notebook.meta.uuid
      · have h' : planWalked outputQuiverPath libraryMeta rest record = .ok record' := by
          simpa [planWalked, hnotes, hch] using h
        rw [ih _ _ h']
        simp [hempty]
      · have hch' : notebookHasChildren libraryMeta notebook.meta.uuid = false := by
          simpa using hch
        have h' : planWalked outputQuiverPath libraryMeta rest record = .ok record' := by
          simpa [planWalked, hnotes, hch'] using h
        rw [ih _ _ h']
        simp [hempty]

/-- A successful walked-notebook pass keeps the record's keys
duplicate-free. -/
theorem planWalked_ok_keys_nodup (outputQuiverPath : String) (libraryMeta : QvLibraryMeta) :
    ∀ (invs : List (QvNotebook × List QvNotebook)) (record record' : List (String × String)),
      (record.map Prod.fst).Nodup →
      planWalked outputQuiverPath libraryMeta invs record = .ok record' →
      (record'.map Prod.fst).Nodup := by
  intro invs
  induction invs with
  | nil =>
    intro record record' hnd h
    simp [planWalked] at h
    rw [← h]
    exact hnd
  | cons inv rest ih =>
    intro record record' hnd h
    obtain ⟨notebook, parents⟩ := inv
    by_cases hn : 0 < notebook.notes.length
    · have hnotes : (decide (0 < notebook.notes.length)) = true := by simpa using hn
      cases hp : planNotebookNotes (pathJoin (outputQuiverPath ::
          (parents.map (fun p => normalizePath p.meta.name) ++
            [normalizePath notebook.meta.name]))) notebook.notes [] record with
      | error e => simp [planWalked, hnotes, hp] at h
      | ok pr =>
        obtain ⟨names₁, record₁⟩ := pr
        have h' : planWalked outputQuiverPath libraryMeta rest record₁ = .ok record' := by
          simpa [planWalked, hnotes, hp] using h
        exact ih _ _ (planNotebookNotes_ok_keys_nodup _ _ _ _ _ _ hnd hp) h'
    · have hnotes : (decide (0 < notebook.notes.length)) = false := by simpa using hn
      by_cases hch : notebookHasChildren libraryMeta notebook.meta.uuid
      · have h' : planWalked outputQuiverPath libraryMeta rest record = .ok record' := by
          simpa [planWalked, hnotes, hch] using h
        exact ih _ _ hnd h'
      · have hch' : notebookHasChildren libraryMeta notebook.meta.uuid = false := by
          simpa using hch
        have h' : planWalked outputQuiverPath libraryMeta rest record = .ok record' := by
          simpa [planWalked, hnotes, hch'] using h
        exact ih _ _ hnd h'

/-- A successful orphan pass appends the not-in-meta notebooks' note uuids
to the record's keys. -/
theorem planOrphans_ok_keys (outputQuiverPath : String) (notebooksInMeta : List String) :
    ∀ (nbs : List QvNotebook) (record record' : List (String × String)),
      planOrphans outputQuiverPath notebooksInMeta nbs record = .ok record' →
      record'.map Prod.fst = record.map Prod.fst ++
        ((nbs.filter (fun nb => !notebooksInMeta.contains nb.meta.uuid)).map
          (fun nb => nb.notes.map (fun n => n.meta.uuid))).flatten := by
  intro nbs
  induction nbs with
  | nil =>
    intro record record' h
    simp [planOrphans] at h
    rw [← h]
    simp
  | cons notebook rest ih =>
    intro record record' h
    by_cases hin : notebook.meta.uuid ∈ notebooksInMeta
    · have h' : planOrphans outputQuiverPath notebooksInMeta rest record = .ok record' := by
        simpa [planOrphans, hin] using h
      rw [ih _ _ h']
      simp [List.filter_cons, hin]
    · by_cases hz : notebook.notes = []
      · have h' : planOrphans outputQuiverPath notebooksInMeta rest record = .ok record' := by
          simpa [planOrphans, hin, hz] using h
        rw [ih _ _ h']
        simp [List.filter_cons, hin, hz]
      · cases hp : planNotebookNotes
            (pathJoin [outputQuiverPath, normalizePath notebook.meta.name])
            notebook.notes [] record with
        | error e => simp [planOrphans, hin, hz, hp] at h
        | ok pr =>
          obtain ⟨names₁, record₁⟩ := pr
          have h' : planOrphans outputQuiverPath notebooksInMeta rest record₁ =
              .ok record' := by
            simpa [planOrphans, hin, hz, hp] using h
          have hk := planNotebookNotes_ok_keys _ _ _ _ _ _ hp
          rw [ih _ _ h', hk]
          simp [List.filter_cons, hin]

/-- A successful orphan pass keeps the record's keys duplicate-free. -/
theorem planOrphans_ok_keys_nodup (outputQuiverPath : String)
    (notebooksInMeta : List String) :
    ∀ (nbs : List QvNotebook) (record record' : List (String × String)),
      (record.map Prod.fst).Nodup →
      planOrphans outputQuiverPath notebooksInMeta nbs record = .ok record' →
      (record'.map Prod.fst).Nodup := by
  intro nbs
  induction nbs with
  | nil =>
    intro record record' hnd h
    simp [planOrphans] at h
    rw [← h]
    exact hnd
  | cons notebook rest ih =>
    intro record record' hnd h
    by_cases hin : notebook.meta.uuid ∈ notebooksInMeta
    · exact ih _ _ hnd (by simpa [planOrphans, hin] using h)
    · by_cases hz : notebook.notes = []
      · exact ih _ _ hnd (by simpa [planOrphans, hin, hz] using h)
      · cases hp : planNotebookNotes
            (pathJoin [outputQuiverPath, normalizePath notebook.meta.name])
            notebook.notes [] record with
        | error e => simp [planOrphans, hin, hz, hp] at h
        | ok pr =>
          obtain ⟨names₁, record₁⟩ := pr
          have h' : planOrphans outputQuiverPath notebooksInMeta rest record₁ =
              .ok record' := by
            simpa [planOrphans, hin, hz, hp] using h
          exact ih _ _ (planNotebookNotes_ok_keys_nodup _ _ _ _ _ _ hnd hp) h'

/-- On a single orphan notebook with a non-empty note list, the orphan pass
reduces to the notebook's note loop: a note-loop error is returned as is. -/
theorem planOrphans_singleton_error (oqp : String) (nb : QvNotebook) (e : PlanError)
    (hne : ¬ nb.notes.length = 0)
    (hpn : planNotebookNotes (pathJoin [oqp, normalizePath nb.meta.name])
      nb.notes [] [] = .error e) :
    planOrphans oqp [] [nb] [] = .error e := by
  have h1 : ¬ (([] : List String).contains nb.meta.uuid = true) := by simp
  rw [planOrphans, if_neg h1, if_neg hne]
  simp [hpn]

/-- Claim C2 (amended): if any note uuid occurs twice among the notes the
planner iterates over — across hierarchy-walked notebooks and orphan
notebooks combined — then export planning fails with a fatal error: the
duplicate-note-id error (raised by the check against the global note-path
record before each insertion), unless planning already aborted with the
rename-exhausted error before reaching the second occurrence. -/
theorem claim_C2_duplicate_note_uuid_fatal (library : QvLibrary) (outputPath u : String)
    (h : 2 ≤ (processedNoteUuids library).count u) :
    (∃ u', transformQvLibraryToObsidian library outputPath =
      .error (.duplicateNoteId u')) ∨
    (∃ s, transformQvLibraryToObsidian library outputPath =
      .error (.renameExhausted s)) := by
  cases hres : transformQvLibraryToObsidian library outputPath with
  | error e =>
    cases e with
    | duplicateNoteId u' => exact Or.inl ⟨u', rfl⟩
    | renameExhausted s => exact Or.inr ⟨s, rfl⟩
  | ok record =>
    exfalso
    simp only [transformQvLibraryToObsidian] at hres
    cases hw : planWalked (pathJoin [outputPath, "quiver"]) library.meta
        (quiverHierarchyWalk library).1 [] with
    | error e => rw [hw] at hres; simp at hres
    | ok record₁ =>
      rw [hw] at hres
      have hk1 := planWalked_ok_keys _ _ _ _ _ hw
      have hk2 := planOrphans_ok_keys _ _ _ _ _ hres
      have hn1 := planWalked_ok_keys_nodup _ _ _ _ _ (by simp) hw
      have hn2 := planOrphans_ok_keys_nodup _ _ _ _ _ hn1 hres
      rw [hk2, hk1] at hn2
      simp only [List.map_nil, List.nil_append] at hn2
      have hp : (processedNoteUuids library).Nodup := hn2
      have := List.nodup_iff_count_le_one.mp hp u
      omega

/-- Counterexample input for C2: one orphan notebook holding 101 notes all
titled `"A"` with distinct uuids `u0 … u100`, followed by a note titled
`"B"` whose uuid repeats `u0`. -/
def exC2NoteA (i : Nat) : QvNote := ⟨⟨"A", "u" ++ toString i⟩⟩

/-- The counterexample note list for C2. -/
def exC2Notes : List QvNote :=
  (List.range 101).map exC2NoteA ++ [⟨⟨"B", "u0"⟩⟩]

/-- The counterexample library for C2. -/
def exC2Lib : QvLibrary := ⟨.node "root" [], [⟨⟨"NB", "nb1"⟩, exC2Notes⟩]⟩

/-- Counterexample to claim C2 as stated: in `exC2Lib` the uuid `"u0"`
occurs twice among the processed notes, yet planning raises the
rename-exhausted error (the 101st identically-titled note exhausts the
collision resolver) — not the duplicate-note-id error the claim
promises. -/
theorem claim_C2_counterexample :
    2 ≤ (processedNoteUuids exC2Lib).count "u0" ∧
    transformQvLibraryToObsidian exC2Lib "out" =
      .error (.renameExhausted "A") := by
  constructor
  · decide
  · have hsplit : exC2Notes =
        ((List.range 100).map exC2NoteA) ++ (exC2NoteA 100 :: [⟨⟨"B", "u0"⟩⟩]) := by
      rw [exC2Notes, show (101 : Nat) = 100 + 1 from rfl, List.range_succ]
      simp
    obtain ⟨rec100, hrec100⟩ := planNotebookNotes_sameTitle "out/quiver/NB" "A"
      ((List.range 100).map exC2NoteA) 0 [] (by simp) (by decide) (by decide)
      (fun n _ => rfl)
    rw [nameSeq_zero] at hrec100
    simp only [List.length_map, List.length_range, Nat.zero_add] at hrec100
    have hkeys : rec100.map Prod.fst = (List.range 100).map (fun i => "u" ++ toString i) := by
      have := planNotebookNotes_ok_keys _ _ _ _ _ _ hrec100
      rw [this]
      simp [exC2NoteA]
    have hlkfresh : (rec100.lookup "u100").isSome = false := by
      have : rec100.lookup "u100" = none := by
        rw [lookup_eq_none_iff, hkeys]
        decide
      rw [this]
      rfl
    have hcont : (nameSeq "A" 100).contains "A" = true := by
      simpa using mem_nameSeq_self "A" 100 (by omega)
    have hexhaust : newDistinctNoteName "A" (nameSeq "A" 100) 2 =
        .error (.renameExhausted "A") := by
      refine newDistinctNoteNameGo_error_of_all _ _ _ _ ?_
      intro k hk1 hk2
      have hk2' : k ≤ 100 := hk2
      exact contains_nameSeq_of_le "A" 100 k hk1 hk2'
    have hresolve : resolveNoteName (nameSeq "A" 100) "A" =
        .error (.renameExhausted "A") := by
      rw [resolveNoteName, if_pos hcont]
      exact hexhaust
    have hplan : planNotebookNotes "out/quiver/NB" exC2Notes [] [] =
        .error (.renameExhausted "A") := by
      rw [hsplit]
      have happend : ∀ (l₁ l₂ : List QvNote) (names : List String)
          (record : List (String × String)),
          planNotebookNotes "out/quiver/NB" (l₁ ++ l₂) names record =
            match planNotebookNotes "out/quiver/NB" l₁ names record with
            | .error e => .error e
            | .ok (names₁, record₁) =>
              planNotebookNotes "out/quiver/NB" l₂ names₁ record₁ := by
        intro l₁
        induction l₁ with
        | nil => intro l₂ names record; simp [planNotebookNotes]
        | cons note rest ih =>
          intro l₂ names record
          by_cases hlk : (record.lookup note.meta.uuid).isSome
          · simp [planNotebookNotes, hlk]
          · cases hres : resolveNoteName names (sanitizeNoteTitle note.meta.title) with
            | error e => simp [planNotebookNotes, hlk, hres]
            | ok noteName => simp [planNotebookNotes, hlk, hres, ih]
      rw [happend, hrec100]
      have hT : sanitizeNoteTitle (exC2NoteA 100).meta.title = "A" := rfl
      have hu : (exC2NoteA 100).meta.uuid = "u100" := rfl
      simp [planNotebookNotes, hu, hlkfresh, hT, hresolve]
    have hred : transformQvLibraryToObsidian exC2Lib "out" =
        planOrphans "out/quiver" [] exC2Lib.notebooks [] := rfl
    rw [hred]
    show planOrphans "out/quiver" [] [⟨⟨"NB", "nb1"⟩, exC2Notes⟩] [] =
      .error (.renameExhausted "A")
    refine planOrphans_singleton_error "out/quiver" ⟨⟨"NB", "nb1"⟩, exC2Notes⟩ _
      (by decide) ?_
    show planNotebookNotes (pathJoin ["out/quiver", normalizePath "NB"]) exC2Notes [] [] =
      .error (.renameExhausted "A")
    rw [show pathJoin ["out/quiver", normalizePath "NB"] = "out/quiver/NB" from rfl]
    exact hplan

/-- Witness input for C2: a one-notebook library where two notes share the
uuid `"d1"`. -/
def wC2Lib : QvLibrary :=
  ⟨.node "root" [], [⟨⟨"NB", "nb1"⟩, [⟨⟨"X", "d1"⟩⟩, ⟨⟨"Y", "d1"⟩⟩]⟩]⟩

/-- Witness for C2 at a concrete input: the duplicated uuid `"d1"` makes
planning fail fatally. -/
theorem claim_C2_witness :
    2 ≤ (processedNoteUuids wC2Lib).count "d1" ∧
    ((∃ u', transformQvLibraryToObsidian wC2Lib "out" =
        .error (.duplicateNoteId u')) ∨
     (∃ s, transformQvLibraryToObsidian wC2Lib "out" =
        .error (.renameExhausted s))) :=
  ⟨by decide, claim_C2_duplicate_note_uuid_fatal wC2Lib "out" "d1" (by decide)⟩

/-! ## The resource-name normalizer `replaceResourceName`
(`src/quiver/index.ts` lines 591-617)

The source applies three regex replacements in order; the regex text is
parameterized on the mode: file mode anchors with `^…$` over a bare
filename, content mode wraps with `\(…\)` and the `_resources/` tag.  Each
regex is embedded as a scanner with the engine's semantics: lazy `.*?`
scans left to right (never across a line terminator), alternations are
tried in listed order, the `i` flag compares case-insensitively, and in
content mode the `g` flag resumes scanning after each match. -/

/-- The fixed allow-list of image extensions of rule 1, in the source's
alternation order. -/
def imageExtensions : List String :=
  ["bmp", "jpg", "png", "tif", "gif", "pcx", "tga", "exif", "fpx", "svg", "psd",
   "cdr", "pcd", "dxf", "ufo", "eps", "ai", "raw", "WMF", "webp", "jpeg", "ico",
   "awebp"]

/-- JS line terminators (the characters `.` never matches). -/
def isJsLineTerminator (c : Char) : Bool := c = '\n' || c = '\r'

/-- The `(\s|&|\?)` query-delimiter class of rule 1 (`\s` modelled by ASCII
whitespace). -/
def isQueryDelim (c : Char) : Bool := c.isWhitespace || c = '&' || c = '?'

/-- Case-insensitive prefix test (the regex `i` flag). -/
def ciStartsWith : List Char → List Char → Bool
  | [], _ => true
  | _ :: _, [] => false
  | p :: ps, c :: cs => (p.toLower = c.toLower) && ciStartsWith ps cs

/-- Case-insensitive equality of character lists. -/
def ciEqList : List Char → List Char → Bool
  | [], [] => true
  | p :: ps, c :: cs => (p.toLower = c.toLower) && ciEqList ps cs
  | _, _ => false

/-- Right after a `'.'`: the rule-1 extension alternation in file mode.
Some listed extension must match case-insensitively, followed by a query
delimiter; the `.*$` tail must stay on one line.  Returns the matched
extension length. -/
def rule1ExtAt (rest : List Char) : Option Nat :=
  imageExtensions.findSome? fun e =>
    if ciStartsWith e.data rest then
      match rest.drop e.data.length with
      | d :: tail =>
        if isQueryDelim d && tail.all (fun c => !isJsLineTerminator c) then
          some e.data.length
        else none
      | [] => none
    else none

/-- The lazy scan of file-mode rule 1 (`^(.*?\.(ext…))(\s|&|\?).*$`): find
the earliest dot whose extension and delimiter match; the captured group is
the consumed prefix, the dot and the matched extension characters. -/
def rule1Find (acc : List Char) : List Char → Option (List Char)
  | [] => none
  | c :: rest =>
    if c = '.' then
      match rule1ExtAt rest with
      | some n => some (acc.reverse ++ c :: rest.take n)
      | none => rule1Find (c :: acc) rest
    else if isJsLineTerminator c then none
    else rule1Find (c :: acc) rest

/-- Rule 1 of `replaceResourceName` in file mode: strip a query-style
suffix after a known image extension, keeping the captured group. -/
def fileStripQuerySuffix (s : String) : String :=
  match rule1Find [] s.data with
  | some g1 => String.mk g1
  | none => s

/-- The lazy scan of file-mode rule 2 (`^(.*?)\.(e₁|…)$`): find the
earliest dot after which the whole remainder equals a configured extension
case-insensitively; the captured group is the prefix before that dot. -/
def rule2Find (cfg : List String) (acc : List Char) : List Char → Option (List Char)
  | [] => none
  | c :: rest =>
    if c = '.' then
      if cfg.any (fun e => ciEqList e.data rest) then some acc.reverse
      else rule2Find cfg (c :: acc) rest
    else if isJsLineTerminator c then none
    else rule2Find cfg (c :: acc) rest

/-- Rule 2 of `replaceResourceName` in file mode: replace a configured
extension with `.png`. -/
def fileReplaceConfiguredExt (cfg : List String) (s : String) : String :=
  match rule2Find cfg [] s.data with
  | some g1 => String.mk g1 ++ ".png"
  | none => s

/-- The `[0-9A-Z]` class of rule 3 (case-sensitive: the regex carries only
the `g` flag). -/
def isUpperAlnum (c : Char) : Bool :=
  ('0' ≤ c && c ≤ '9') || ('A' ≤ c && c ≤ 'Z')

/-- Rule 3 of `replaceResourceName` in file mode (`^([0-9A-Z]{32})$`):
append `.png` to an extensionless 32-character resource id. -/
def fileAddDefaultExt (s : String) : String :=
  if s.data.length = 32 && s.data.all isUpperAlnum then s ++ ".png" else s

/-- The literal `_resources/` resource tag of content mode. -/
def resourceTagChars : List Char := "_resources/".data

/-- Right after a `'.'` in content-mode rule 1: the extension alternation,
then a query delimiter, then the greedy one-line `.*` up to the last `')'`
on the line.  Returns the matched extension length and the characters after
the closing parenthesis. -/
def contentRule1ExtAt (rest : List Char) : Option (Nat × List Char) :=
  imageExtensions.findSome? fun e =>
    if ciStartsWith e.data rest then
      match rest.drop e.data.length with
      | d :: tail =>
        if isQueryDelim d then
          let line := tail.takeWhile (fun c => !isJsLineTerminator c)
          match line.reverse.findIdx? (fun c => c = ')') with
          | some k => some (e.data.length, tail.drop (line.length - k))
          | none => none
        else none
      | [] => none
    else none

/-- The lazy dot scan of content-mode rule 1
(`\((_resources\/.*?\.(ext…))(\s|&|\?).*\)`), after the tag has been
consumed: the accumulator holds the reversed captured group so far. -/
def contentRule1Lazy (acc : List Char) : List Char → Option (List Char × List Char)
  | [] => none
  | c :: rest =>
    if c = '.' then
      match contentRule1ExtAt rest with
      | some (n, remaining) => some (acc.reverse ++ c :: rest.take n, remaining)
      | none => contentRule1Lazy (c :: acc) rest
    else if isJsLineTerminator c then none
    else contentRule1Lazy (c :: acc) rest

/-- Content-mode rule 1 matcher at the position right after `'('`. -/
def contentRule1Match (cs : List Char) : Option (List Char × List Char) :=
  if resourceTagChars.isPrefixOf cs then
    contentRule1Lazy resourceTagChars.reverse (cs.drop resourceTagChars.length)
  else none

/-- Content-mode rule 2 matcher at the position right after `'('`
(`\((_resources\/.*?)\.(e₁|…)\)`): lazy scan to the earliest dot followed by
a configured extension and the closing parenthesis; the captured group
includes the tag and the prefix before the dot. -/
def contentRule2Match (cfg : List String) (cs : List Char) :
    Option (List Char × List Char) :=
  if resourceTagChars.isPrefixOf cs then
    go resourceTagChars.reverse (cs.drop resourceTagChars.length)
  else none
where
  go (acc : List Char) : List Char → Option (List Char × List Char)
  | [] => none
  | c :: rest =>
    if c = '.' then
      match cfg.findSome? (fun e =>
        if ciStartsWith e.data rest then
          match rest.drop e.data.length with
          | ')' :: rem => some rem
          | _ => none
        else none) with
      | some rem => some (acc.reverse, rem)
      | none => go (c :: acc) rest
    else if isJsLineTerminator c then none
    else go (c :: acc) rest

/-- Content-mode rule 3 matcher at the position right after `'('`
(`\((_resources\/[0-9A-Z]{32})\)`). -/
def contentRule3Match (cs : List Char) : Option (List Char × List Char) :=
  if resourceTagChars.isPrefixOf cs then
    let rest := cs.drop resourceTagChars.length
    let base := rest.take 32
    if base.length = 32 && base.all isUpperAlnum then
      match rest.drop 32 with
      | ')' :: rem => some (resourceTagChars ++ base, rem)
      | _ => none
    else none
  else none

/-- Global scan for the content-mode rules: at every `'('` try the matcher;
on a match emit `'('`, the rendered captured group and `')'`, and resume
after the match (the `g` flag).  The fuel only bounds the number of scan
steps; each step consumes at least one input character, so
`input length + 1` fuel is always enough. -/
def globalParenReplace (matchAt : List Char → Option (List Char × List Char))
    (render : List Char → List Char) : Nat → List Char → List Char
  | 0, cs => cs
  | _ + 1, [] => []
  | fuel + 1, c :: rest =>
    if c = '(' then
      match matchAt rest with
      | some (g1, remaining) =>
        '(' :: (render g1 ++ ')' :: globalParenReplace matchAt render fuel remaining)
      | none => c :: globalParenReplace matchAt render fuel rest
    else c :: globalParenReplace matchAt render fuel rest

/-- `replaceResourceName` from `src/quiver/index.ts`: the three rules in
order, in the mode selected by `isForFile`; rule 2 runs only when the
configured extension list is non-empty. -/
def replaceResourceName (needReplaceExtNames : List String) (data : String)
    (isForFile : Bool) : String :=
  if isForFile then
    let t1 := fileStripQuerySuffix data
    let t2 := if needReplaceExtNames.isEmpty then t1
      else fileReplaceConfiguredExt needReplaceExtNames t1
    fileAddDefaultExt t2
  else
    let t1 := String.mk (globalParenReplace contentRule1Match (fun g1 => g1)
      (data.data.length + 1) data.data)
    let t2 := if needReplaceExtNames.isEmpty then t1
      else String.mk (globalParenReplace (contentRule2Match needReplaceExtNames)
        (fun g1 => g1 ++ ".png".data) (t1.data.length + 1) t1.data)
    String.mk (globalParenReplace contentRule3Match (fun g1 => g1 ++ ".png".data)
      (t2.data.length + 1) t2.data)

/-! ## Character-class lemmas for rules 1–3 -/

theorem char_le_iff_toNat (a b : Char) : a ≤ b ↔ a.toNat ≤ b.toNat := by
  rw [Char.le_def, UInt32.le_def, BitVec.le_def]
  exact Iff.rfl

/-- An uppercase-hex character (digit or `A`–`F`) lies in the rule-3 class
`[0-9A-Z]`. -/
theorem isUpperAlnum_of_hex (c : Char)
    (h : c.isDigit = true ∨ ('A' ≤ c ∧ c ≤ 'F')) : isUpperAlnum c = true := by
  rcases h with h | ⟨h1, h2⟩
  · simp only [Char.isDigit, Bool.and_eq_true, decide_eq_true_eq] at h
    simp only [isUpperAlnum, Bool.or_eq_true, Bool.and_eq_true, decide_eq_true_eq]
    exact Or.inl ⟨h.1, h.2⟩
  · have g1 : c ≤ 'Z' := by
      rw [char_le_iff_toNat]
      have := (char_le_iff_toNat c 'F').mp h2
      rw [show ('F' : Char).toNat = 70 from rfl] at this
      rw [show ('Z' : Char).toNat = 90 from rfl]
      omega
    simp only [isUpperAlnum, Bool.or_eq_true, Bool.and_eq_true, decide_eq_true_eq]
    exact Or.inr ⟨h1, g1⟩

/-- A lowercase letter is outside the rule-3 class `[0-9A-Z]` (the pattern
is matched case-sensitively). -/
theorem isUpperAlnum_of_lower (c : Char) (h : c.isLower = true) :
    isUpperAlnum c = false := by
  simp only [Char.isLower, ge_iff_le, Bool.and_eq_true, decide_eq_true_eq] at h
  obtain ⟨h1, h2⟩ := h
  have h1' : (97 : Nat) ≤ c.toNat := BitVec.le_def.mp (UInt32.le_def.mp h1)
  have g1 : ¬ (c ≤ '9') := by
    rw [char_le_iff_toNat]
    intro hc
    rw [show ('9' : Char).toNat = 57 from rfl] at hc
    omega
  have g2 : ¬ (c ≤ 'Z') := by
    rw [char_le_iff_toNat]
    intro hc
    rw [show ('Z' : Char).toNat = 90 from rfl] at hc
    omega
  simp [isUpperAlnum, g1, g2]

/-- Rule-3-class characters are neither the dot nor a line terminator. -/
theorem upperAlnum_not_dot (c : Char) (h : isUpperAlnum c = true) :
    ¬ c = '.' ∧ isJsLineTerminator c = false := by
  constructor
  · intro he
    rw [he] at h
    exact absurd h (by decide)
  · by_cases h1 : c = '\n'
    · rw [h1] at h
      exact absurd h (by decide)
    · by_cases h2 : c = '\r'
      · rw [h2] at h
        exact absurd h (by decide)
      · simp [isJsLineTerminator, h1, h2]

/-- Alphanumeric characters are neither the dot nor a line terminator. -/
theorem alnum_not_dot (c : Char) (h : c.isAlphanum = true) :
    ¬ c = '.' ∧ isJsLineTerminator c = false := by
  constructor
  · intro he
    rw [he] at h
    exact absurd h (by decide)
  · by_cases h1 : c = '\n'
    · rw [h1] at h
      exact absurd h (by decide)
    · by_cases h2 : c = '\r'
      · rw [h2] at h
        exact absurd h (by decide)
      · simp [isJsLineTerminator, h1, h2]

/-! ## How the file-mode scanners treat dot-free prefixes -/

theorem rule1Find_append (cs ds acc : List Char)
    (h : ∀ c ∈ cs, ¬ c = '.' ∧ isJsLineTerminator c = false) :
    rule1Find acc (cs ++ ds) = rule1Find (cs.reverse ++ acc) ds := by
  induction cs generalizing acc with
  | nil => simp
  | cons c rest ih =>
    have hc := h c (by simp)
    simp only [List.cons_append, rule1Find]
    rw [if_neg hc.1]
    rw [hc.2]
    simp only [Bool.false_eq_true, if_false]
    have hrec := ih (c :: acc) (fun x hx => h x (by simp [hx]))
    rw [List.reverse_cons, List.append_assoc, List.singleton_append]
    exact hrec

theorem rule1Find_none (cs acc : List Char)
    (h : ∀ c ∈ cs, ¬ c = '.' ∧ isJsLineTerminator c = false) :
    rule1Find acc cs = none := by
  have := rule1Find_append cs [] acc h
  simpa [rule1Find] using this

theorem rule2Find_append (cfg : List String) (cs ds acc : List Char)
    (h : ∀ c ∈ cs, ¬ c = '.' ∧ isJsLineTerminator c = false) :
    rule2Find cfg acc (cs ++ ds) = rule2Find cfg (cs.reverse ++ acc) ds := by
  induction cs generalizing acc with
  | nil => simp
  | cons c rest ih =>
    have hc := h c (by simp)
    simp only [List.cons_append, rule2Find]
    rw [if_neg hc.1]
    rw [hc.2]
    simp only [Bool.false_eq_true, if_false]
    have hrec := ih (c :: acc) (fun x hx => h x (by simp [hx]))
    rw [List.reverse_cons, List.append_assoc, List.singleton_append]
    exact hrec

theorem rule2Find_none (cfg : List String) (cs acc : List Char)
    (h : ∀ c ∈ cs, ¬ c = '.' ∧ isJsLineTerminator c = false) :
    rule2Find cfg acc cs = none := by
  have := rule2Find_append cfg cs [] acc h
  simpa [rule2Find] using this

/-- The concrete tail `.png` never matches rule 1: no listed extension is
a prefix of `png` followed by a query delimiter. -/
theorem rule1Find_dotpng (acc : List Char) :
    rule1Find acc ['.', 'p', 'n', 'g'] = none := rfl

/-- Rule 1 never fires on a dot-free name followed by `.png`. -/
theorem rule1Find_png (name acc : List Char)
    (h : ∀ c ∈ name, ¬ c = '.' ∧ isJsLineTerminator c = false) :
    rule1Find acc (name ++ ['.', 'p', 'n', 'g']) = none := by
  rw [rule1Find_append name _ acc h]
  exact rule1Find_dotpng _

/-- The concrete tail `.png` matches rule 2 exactly when `png` is among
the configured extensions, capturing everything before the dot. -/
theorem rule2Find_dotpng (cfg : List String) (acc : List Char) :
    rule2Find cfg acc ['.', 'p', 'n', 'g'] = none ∨
    rule2Find cfg acc ['.', 'p', 'n', 'g'] = some acc.reverse := by
  by_cases hb : (cfg.any fun e => ciEqList e.data ['p', 'n', 'g']) = true
  · right
    simp [rule2Find, hb, isJsLineTerminator]
  · left
    simp [rule2Find, hb, isJsLineTerminator]

/-- Rule 2 on a dot-free name followed by `.png` either does not fire, or
fires reproducing the same name (when `png` is itself a configured
extension). -/
theorem rule2Find_png (cfg : List String) (name : List Char)
    (h : ∀ c ∈ name, ¬ c = '.' ∧ isJsLineTerminator c = false) :
    rule2Find cfg [] (name ++ ['.', 'p', 'n', 'g']) = none ∨
    rule2Find cfg [] (name ++ ['.', 'p', 'n', 'g']) = some name := by
  rw [rule2Find_append cfg name _ [] h]
  rcases rule2Find_dotpng cfg (name.reverse ++ []) with hr | hr
  · exact Or.inl hr
  · right
    rw [hr]
    simp

/-- Claim C8: for every configured extension list and every resource name
with no extension whose 32 characters are uppercase hexadecimal,
`replaceResourceName` in file mode appends exactly `.png`; moreover a
second application leaves the result unchanged, so the normalizer is
idempotent on such names. -/
theorem claim_C8_hex32_append_png_idempotent (cfg : List String) (name : String)
    (hlen : name.data.length = 32)
    (hhex : ∀ c ∈ name.data, c.isDigit = true ∨ ('A' ≤ c ∧ c ≤ 'F')) :
    replaceResourceName cfg name true = name ++ ".png" ∧
    replaceResourceName cfg (name ++ ".png") true = name ++ ".png" ∧
    replaceResourceName cfg (replaceResourceName cfg name true) true =
      replaceResourceName cfg name true := by
  have hclass : ∀ c ∈ name.data, isUpperAlnum c = true :=
    fun c hc => isUpperAlnum_of_hex c (hhex c hc)
  have hnd : ∀ c ∈ name.data, ¬ c = '.' ∧ isJsLineTerminator c = false :=
    fun c hc => upperAlnum_not_dot c (hclass c hc)
  have hfile : ∀ s : String, replaceResourceName cfg s true =
      fileAddDefaultExt (if cfg.isEmpty then fileStripQuerySuffix s
        else fileReplaceConfiguredExt cfg (fileStripQuerySuffix s)) :=
    fun s => rfl
  have h1 : fileStripQuerySuffix name = name := by
    rw [fileStripQuerySuffix, rule1Find_none _ _ hnd]
  have h2 : fileReplaceConfiguredExt cfg name = name := by
    rw [fileReplaceConfiguredExt, rule2Find_none _ _ _ hnd]
  have h3 : fileAddDefaultExt name = name ++ ".png" := by
    have hall : name.data.all isUpperAlnum = true := List.all_eq_true.mpr hclass
    simp [fileAddDefaultExt, hlen, hall]
  have hfirst : replaceResourceName cfg name true = name ++ ".png" := by
    rw [hfile, h1]
    have h2' : (if cfg.isEmpty then name else fileReplaceConfiguredExt cfg name) =
        name := by
      by_cases he : cfg.isEmpty
      · simp [he]
      · simp [he, h2]
    rw [h2']
    exact h3
  have hdata : (name ++ ".png").data = name.data ++ ['.', 'p', 'n', 'g'] := rfl
  have h1' : fileStripQuerySuffix (name ++ ".png") = name ++ ".png" := by
    rw [fileStripQuerySuffix, hdata, rule1Find_png _ _ hnd]
  have h2'' : fileReplaceConfiguredExt cfg (name ++ ".png") = name ++ ".png" := by
    rw [fileReplaceConfiguredExt, hdata]
    rcases rule2Find_png cfg name.data hnd with hr | hr
    · rw [hr]
    · rw [hr]
  have h3' : fileAddDefaultExt (name ++ ".png") = name ++ ".png" := by
    have hlen' : (name ++ ".png").data.length = 36 := by
      rw [hdata]
      simp [hlen]
    rw [fileAddDefaultExt, hlen']
    simp
  have hsecond : replaceResourceName cfg (name ++ ".png") true = name ++ ".png" := by
    rw [hfile, h1']
    have hce : (if cfg.isEmpty then name ++ ".png"
        else fileReplaceConfiguredExt cfg (name ++ ".png")) = name ++ ".png" := by
      by_cases he : cfg.isEmpty
      · simp [he]
      · simp [he, h2'']
    rw [hce]
    exact h3'
  refine ⟨hfirst, hsecond, ?_⟩
  rw [hfirst, hsecond]

/-- Witness input for C8: a concrete 32-character uppercase-hex name. -/
def wC8Name : String := "0123456789ABCDEF0123456789ABCDEF"

/-- Witness for C8 at a concrete input (with a non-empty configured
extension list, so all three rules run). -/
theorem claim_C8_witness :
    replaceResourceName ["awebp"] wC8Name true = wC8Name ++ ".png" ∧
    replaceResourceName ["awebp"] (replaceResourceName ["awebp"] wC8Name true) true =
      replaceResourceName ["awebp"] wC8Name true := by
  obtain ⟨hfirst, _, hidem⟩ :=
    claim_C8_hex32_append_png_idempotent ["awebp"] wC8Name (by decide) (by decide)
  exact ⟨hfirst, hidem⟩

/-- Claim C10 (implicit): the default-extension rule of the file-mode
normalizer fires for every extensionless 32-character name drawn from
digits and uppercase `A`–`Z` — not only hexadecimal digits — while a
32-character alphanumeric stem containing any lowercase letter is left
unchanged (the `[0-9A-Z]` class is matched case-sensitively). -/
theorem claim_C10_rule3_uppercase_alnum_class (cfg : List String) (name : String)
    (hlen : name.data.length = 32)
    (halnum : ∀ c ∈ name.data, c.isAlphanum = true) :
    ((∀ c ∈ name.data, isUpperAlnum c = true) →
      replaceResourceName cfg name true = name ++ ".png") ∧
    ((∃ c ∈ name.data, c.isLower = true) →
      replaceResourceName cfg name true = name) := by
  have hnd : ∀ c ∈ name.data, ¬ c = '.' ∧ isJsLineTerminator c = false :=
    fun c hc => alnum_not_dot c (halnum c hc)
  have hfile : ∀ s : String, replaceResourceName cfg s true =
      fileAddDefaultExt (if cfg.isEmpty then fileStripQuerySuffix s
        else fileReplaceConfiguredExt cfg (fileStripQuerySuffix s)) :=
    fun s => rfl
  have h1 : fileStripQuerySuffix name = name := by
    rw [fileStripQuerySuffix, rule1Find_none _ _ hnd]
  have h2 : fileReplaceConfiguredExt cfg name = name := by
    rw [fileReplaceConfiguredExt, rule2Find_none _ _ _ hnd]
  have hpre : replaceResourceName cfg name true = fileAddDefaultExt name := by
    rw [hfile, h1]
    by_cases he : cfg.isEmpty
    · simp [he]
    · simp [he, h2]
  constructor
  · intro hclass
    have hall : name.data.all isUpperAlnum = true := List.all_eq_true.mpr hclass
    rw [hpre]
    simp [fileAddDefaultExt, hlen, hall]
  · intro hlow
    obtain ⟨c, hc, hcl⟩ := hlow
    have hfalse : isUpperAlnum c = false := isUpperAlnum_of_lower c hcl
    have hall : name.data.all isUpperAlnum = false := by
      rcases Bool.eq_false_or_eq_true (name.data.all isUpperAlnum) with h | h
      · exact absurd (List.all_eq_true.mp h c hc) (by simp [hfalse])
      · exact h
    rw [hpre, fileAddDefaultExt, hall]
    simp

/-- Witness input for C10: 32 `Z` characters (in the class but not hex). -/
def wC10NameZ : String := "ZZZZZZZZZZZZZZZZZZZZZZZZZZZZZZZZ"

/-- Witness input for C10: a 32-character stem containing lowercase
letters. -/
def wC10NameLower : String := "abcdefghijklmnopqrstuvwxyzABCDEF"

/-- Witness for C10 at concrete inputs: all-`Z` gets `.png` appended, the
lowercase-containing stem is left unchanged. -/
theorem claim_C10_witness :
    replaceResourceName [] wC10NameZ true = wC10NameZ ++ ".png" ∧
    replaceResourceName [] wC10NameLower true = wC10NameLower :=
  ⟨(claim_C10_rule3_uppercase_alnum_class [] wC10NameZ (by decide) (by decide)).1
      (by decide),
   (claim_C10_rule3_uppercase_alnum_class [] wC10NameLower (by decide) (by decide)).2
      ⟨'a', by decide, by decide⟩⟩

/-! ## The link rewriter `transformQuiverResourceAndNoteLink`
(`src/quiver/index.ts` lines 528-579)

Four steps in order: (1)-(2) rewrite the two legacy resource-url prefixes
to `_resources/`; (3) `replaceResourceName` in content mode; (3½) re-map
`_resources/<name>` references through the per-note resource map; (4)
rewrite note links to wikilinks, recording broken links. -/

/-- One broken note link (`this.brokenLinks` entries). -/
structure BrokenLink where
  sourceNoteTitle : String
  sourceNoteId : String
  targetNoteId : String
deriving Repr, DecidableEq

/-- JS `String.replace(/lit/g, rep)` for a literal pattern:
non-overlapping left-to-right replacement.  Fuel bounds scan steps; every
step consumes at least one character (the patterns used are non-empty), so
`input length + 1` fuel is always enough. -/
def replaceAllSub (pat rep : List Char) : Nat → List Char → List Char
  | 0, cs => cs
  | _ + 1, [] => []
  | fuel + 1, c :: rest =>
    if pat.isPrefixOf (c :: rest) then
      rep ++ replaceAllSub pat rep fuel ((c :: rest).drop pat.length)
    else c :: replaceAllSub pat rep fuel rest

/-- String wrapper for `replaceAllSub`. -/
def replaceAll (pat rep s : String) : String :=
  String.mk (replaceAllSub pat.data rep.data (s.data.length + 1) s.data)

/-- The `[^)\s?#]` base-name class of the resource-link regex. -/
def isResBaseChar (c : Char) : Bool :=
  !(c = ')' || c.isWhitespace || c = '?' || c = '#')

/-- The terminator alternation `\)|\\|\s|\?|#` (the `$` alternative is the
end of input). -/
def isResTerminator (c : Char) : Bool :=
  c = ')' || c = '\\' || c.isWhitespace || c = '?' || c = '#'

/-- The `[a-zA-Z0-9]` extension class. -/
def isAsciiAlnum (c : Char) : Bool := c.isAlpha || c.isDigit

/-- After the lazy base name: the optional greedy extension
`(\.[a-zA-Z0-9]+)?` and then a terminator or the end of input.  A shorter
extension run always ends at an alphanumeric character, which is never a
terminator, so only the maximal run can succeed; on failure the extension
is dropped and the terminator is tried directly. -/
def tryExtTerminator (cs : List Char) : Option (List Char × Option Char × List Char) :=
  match cs with
  | '.' :: tl =>
    let run := tl.takeWhile isAsciiAlnum
    if run.isEmpty then plainTerminator cs
    else
      match tl.drop run.length with
      | [] => some ('.' :: run, none, [])
      | d :: rem =>
        if isResTerminator d then some ('.' :: run, some d, rem)
        else plainTerminator cs
  | _ => plainTerminator cs
where
  plainTerminator : List Char → Option (List Char × Option Char × List Char)
  | [] => some ([], none, [])
  | d :: rem => if isResTerminator d then some ([], some d, rem) else none

/-- The lazy `[^)\s?#]+?` base-name scan: consume at least one class
character, try the extension and terminator, and extend the base one
character at a time.  Returns base, extension, consumed terminator and the
remaining characters. -/
def matchResRef (accBase : List Char) :
    List Char → Option (List Char × List Char × Option Char × List Char)
  | [] => none
  | c :: rest =>
    if isResBaseChar c then
      match tryExtTerminator rest with
      | some (ext, suf, rem) => some ((c :: accBase).reverse, ext, suf, rem)
      | none => matchResRef (c :: accBase) rest
    else none

/-- The replacement callback of the `_resources/` re-mapping step: look up
the captured `name+extension` in the per-note map, retry with `.png`
appended, and otherwise keep the original match. -/
def resourceLinkReplacement (resourceMap : List (String × String))
    (base ext : List Char) (suf : Option Char) : List Char :=
  let originalFileName := String.mk (base ++ ext)
  let sufChars : List Char := match suf with | none => [] | some d => [d]
  match resourceMap.lookup originalFileName with
  | some finalName => resourceTagChars ++ finalName.data ++ sufChars
  | none =>
    match resourceMap.lookup (originalFileName ++ ".png") with
    | some finalName => resourceTagChars ++ finalName.data ++ sufChars
    | none => resourceTagChars ++ base ++ ext ++ sufChars

/-- Global scan of the `_resources/` re-mapping regex
(`_resources\/([^)\s?#]+?)(\.[a-zA-Z0-9]+)?(\)|\\|\s|\?|#|$)/g`). -/
def updateResourceLinksGo (resourceMap : List (String × String)) :
    Nat → List Char → List Char
  | 0, cs => cs
  | _ + 1, [] => []
  | fuel + 1, c :: rest =>
    if resourceTagChars.isPrefixOf (c :: rest) then
      match matchResRef [] ((c :: rest).drop resourceTagChars.length) with
      | some (base, ext, suf, rem) =>
        resourceLinkReplacement resourceMap base ext suf ++
          updateResourceLinksGo resourceMap fuel rem
      | none => c :: updateResourceLinksGo resourceMap fuel rest
    else c :: updateResourceLinksGo resourceMap fuel rest

/-- String wrapper for the `_resources/` re-mapping step. -/
def updateResourceLinks (resourceMap : List (String × String)) (s : String) : String :=
  String.mk (updateResourceLinksGo resourceMap (s.data.length + 1) s.data)

/-- The `[0-9A-F]` uuid class of the note-link regex (case-sensitive). -/
def isNoteUuidChar (c : Char) : Bool := c.isDigit || ('A' ≤ c && c ≤ 'F')

/-- Take exactly `n` uuid-class characters. -/
def takeUuidChars : Nat → List Char → Option (List Char × List Char)
  | 0, cs => some ([], cs)
  | _ + 1, [] => none
  | n + 1, c :: cs =>
    if isNoteUuidChar c then
      match takeUuidChars n cs with
      | some (seg, rest) => some (c :: seg, rest)
      | none => none
    else none

/-- Match the canonical hyphenated `8-4-4-4-12` uppercase-hex uuid. -/
def matchUuid (cs : List Char) : Option (List Char × List Char) :=
  match takeUuidChars 8 cs with
  | some (s1, '-' :: r1) =>
    match takeUuidChars 4 r1 with
    | some (s2, '-' :: r2) =>
      match takeUuidChars 4 r2 with
      | some (s3, '-' :: r3) =>
        match takeUuidChars 4 r3 with
        | some (s4, '-' :: r4) =>
          match takeUuidChars 12 r4 with
          | some (s5, r5) =>
            some (s1 ++ '-' :: s2 ++ '-' :: s3 ++ '-' :: s4 ++ '-' :: s5, r5)
          | none => none
        | _ => none
      | _ => none
    | _ => none
  | _ => none

/-- After the link text's `']'`: `\((quiver-note-url|quiver:\/\/\/notes)\/`
then the uuid then `\)` (alternation in the source's order). -/
def tryNoteParen (cs : List Char) : Option (List Char × List Char) :=
  match cs with
  | '(' :: rest =>
    match (if ("quiver-note-url".data).isPrefixOf rest then
        some (rest.drop ("quiver-note-url".data).length)
      else if ("quiver:///notes".data).isPrefixOf rest then
        some (rest.drop ("quiver:///notes".data).length)
      else none) with
    | none => none
    | some r =>
      match r with
      | '/' :: r' =>
        match matchUuid r' with
        | some (uuid, ')' :: rem) => some (uuid, rem)
        | _ => none
      | _ => none
  | _ => none

/-- The lazy `\[.*?\]` search: at each `']'` try the parenthesized scheme
and uuid; on failure the lazy dot consumes the `']'` and the search
continues (never across a line terminator). -/
def findNoteClose : List Char → Option (List Char × List Char)
  | [] => none
  | c :: rest =>
    if c = ']' then
      match tryNoteParen rest with
      | some r => some r
      | none => findNoteClose rest
    else if isJsLineTerminator c then none
    else findNoteClose rest

/-- Global scan of the note-link regex (`src/quiver/index.ts` line 563):
on a hit emit ` [[basename of the mapped path]]`, on a miss emit
` [[uuid]]` and record a broken link. -/
def replaceNoteLinksGo (newNotePathRecord : List (String × String))
    (noteTitle noteUuid : String) : Nat → List Char → List Char × List BrokenLink
  | 0, cs => (cs, [])
  | _ + 1, [] => ([], [])
  | fuel + 1, c :: rest =>
    if c = '[' then
      match findNoteClose rest with
      | some (uuid, rem) =>
        let u := String.mk uuid
        let repl : String × List BrokenLink :=
          match newNotePathRecord.lookup u with
          | none => (" [[" ++ u ++ "]]", [⟨noteTitle, noteUuid, u⟩])
          | some linkNotePath => (" [[" ++ basename linkNotePath ++ "]]", [])
        let r := replaceNoteLinksGo newNotePathRecord noteTitle noteUuid fuel rem
        (repl.1.data ++ r.1, repl.2 ++ r.2)
      | none =>
        let r := replaceNoteLinksGo newNotePathRecord noteTitle noteUuid fuel rest
        (c :: r.1, r.2)
    else
      let r := replaceNoteLinksGo newNotePathRecord noteTitle noteUuid fuel rest
      (c :: r.1, r.2)

/-- String wrapper for the note-link step: the rewritten text and the
broken links recorded, in match order. -/
def replaceNoteLinks (newNotePathRecord : List (String × String))
    (noteTitle noteUuid : String) (s : String) : String × List BrokenLink :=
  let r := replaceNoteLinksGo newNotePathRecord noteTitle noteUuid
    (s.data.length + 1) s.data
  (String.mk r.1, r.2)

/-- `transformQuiverResourceAndNoteLink` from `src/quiver/index.ts`: the
full rewriting pipeline for one cell, returning the rewritten text and the
broken links appended to the accumulator. -/
def transformQuiverResourceAndNoteLink (needReplaceExtNames : List String)
    (currentNoteResourceMap : List (String × String))
    (newNotePathRecord : List (String × String))
    (noteTitle noteUuid : String) (data : String) : String × List BrokenLink :=
  let t1 := replaceAll "quiver-image-url/" "_resources/" data
  let t2 := replaceAll "quiver-file-url/" "_resources/" t1
  let t3 := replaceResourceName needReplaceExtNames t2 false
  let t4 := updateResourceLinks currentNoteResourceMap t3
  replaceNoteLinks newNotePathRecord noteTitle noteUuid t4

/-! ## Lemmas about the note-link scanner, for claim C1 -/

/-- Modelled from the spec's words, for comparison only (claim C1 speaks
of "the stem (final filename without its extension)"): the basename with
its extension removed. -/
def specStem (p : String) : String :=
  match (basename p).data.reverse.dropWhile (fun c => ¬ c = '.') with
  | '.' :: restRev => String.mk restRev.reverse
  | _ => basename p

/-- The lazy link-text scan passes over characters that are neither `']'`
nor line terminators. -/
theorem findNoteClose_skip (cs ds : List Char)
    (h : ∀ c ∈ cs, ¬ c = ']' ∧ isJsLineTerminator c = false) :
    findNoteClose (cs ++ ds) = findNoteClose ds := by
  induction cs with
  | nil => simp
  | cons c rest ih =>
    have hc := h c (by simp)
    simp only [List.cons_append, findNoteClose]
    rw [if_neg hc.1]
    rw [hc.2]
    simp only [Bool.false_eq_true, if_false]
    exact ih (fun x hx => h x (by simp [hx]))

/-- A run of uuid-class characters of the expected length is consumed
exactly. -/
theorem takeUuidChars_exact (seg rest : List Char)
    (h : ∀ c ∈ seg, isNoteUuidChar c = true) :
    takeUuidChars seg.length (seg ++ rest) = some (seg, rest) := by
  induction seg with
  | nil => simp [takeUuidChars]
  | cons c s ih =>
    have hc := h c (by simp)
    simp only [List.length_cons, List.cons_append, takeUuidChars, hc, if_true,
      List.append_eq]
    rw [ih (fun x hx => h x (by simp [hx]))]

/-- The canonical `8-4-4-4-12` hyphenated uppercase-hex uuid shape of the
note-link regex. -/
def CanonicalUuid (u : List Char) : Prop :=
  ∃ s1 s2 s3 s4 s5 : List Char,
    u = s1 ++ '-' :: s2 ++ '-' :: s3 ++ '-' :: s4 ++ '-' :: s5 ∧
    s1.length = 8 ∧ s2.length = 4 ∧ s3.length = 4 ∧ s4.length = 4 ∧
    s5.length = 12 ∧
    (∀ c ∈ s1 ++ s2 ++ s3 ++ s4 ++ s5, isNoteUuidChar c = true)

/-- `matchUuid` consumes a canonical uuid exactly, whatever follows. -/
theorem matchUuid_of_canonical (u rest : List Char) (h : CanonicalUuid u) :
    matchUuid (u ++ rest) = some (u, rest) := by
  obtain ⟨s1, s2, s3, s4, s5, he, h1, h2, h3, h4, h5, hcls⟩ := h
  have hc1 : ∀ c ∈ s1, isNoteUuidChar c = true := fun c hc => hcls c (by simp [hc])
  have hc2 : ∀ c ∈ s2, isNoteUuidChar c = true := fun c hc => hcls c (by simp [hc])
  have hc3 : ∀ c ∈ s3, isNoteUuidChar c = true := fun c hc => hcls c (by simp [hc])
  have hc4 : ∀ c ∈ s4, isNoteUuidChar c = true := fun c hc => hcls c (by simp [hc])
  have hc5 : ∀ c ∈ s5, isNoteUuidChar c = true := fun c hc => hcls c (by simp [hc])
  subst he
  have hshape : (s1 ++ '-' :: s2 ++ '-' :: s3 ++ '-' :: s4 ++ '-' :: s5) ++ rest =
      s1 ++ '-' :: (s2 ++ '-' :: (s3 ++ '-' :: (s4 ++ '-' :: (s5 ++ rest)))) := by
    simp [List.append_assoc]
  rw [hshape]
  have t1 := takeUuidChars_exact s1 ('-' :: (s2 ++ '-' :: (s3 ++ '-' :: (s4 ++ '-' ::
    (s5 ++ rest))))) hc1
  have t2 := takeUuidChars_exact s2 ('-' :: (s3 ++ '-' :: (s4 ++ '-' :: (s5 ++ rest)))) hc2
  have t3 := takeUuidChars_exact s3 ('-' :: (s4 ++ '-' :: (s5 ++ rest))) hc3
  have t4 := takeUuidChars_exact s4 ('-' :: (s5 ++ rest)) hc4
  have t5 := takeUuidChars_exact s5 rest hc5
  rw [h1] at t1
  rw [h2] at t2
  rw [h3] at t3
  rw [h4] at t4
  rw [h5] at t5
  simp only [matchUuid, t1, t2, t3, t4, t5]

/-- A list is a Boolean prefix of itself extended by anything. -/
theorem isPrefixOf_self_append (l t : List Char) : l.isPrefixOf (l ++ t) = true := by
  induction l with
  | nil => simp [List.isPrefixOf]
  | cons c rest ih => simp [List.isPrefixOf, ih]

/-- The parenthesized scheme-and-uuid matcher succeeds on a well-formed
link tail. -/
theorem tryNoteParen_ok (sd ud rem : List Char)
    (hscheme : sd = "quiver-note-url".data ∨ sd = "quiver:///notes".data)
    (huuid : CanonicalUuid ud) :
    tryNoteParen ('(' :: (sd ++ ('/' :: (ud ++ (')' :: rem))))) = some (ud, rem) := by
  have hmu : matchUuid (ud ++ (')' :: rem)) = some (ud, ')' :: rem) :=
    matchUuid_of_canonical ud (')' :: rem) huuid
  rcases hscheme with hs | hs
  · subst hs
    have hpre := isPrefixOf_self_append ("quiver-note-url".data) ('/' :: (ud ++ (')' :: rem)))
    simp only [tryNoteParen, hpre, if_true, List.drop_left, hmu]
  · subst hs
    have hpre := isPrefixOf_self_append ("quiver:///notes".data) ('/' :: (ud ++ (')' :: rem)))
    have hnot : ("quiver-note-url".data).isPrefixOf
        ("quiver:///notes".data ++ ('/' :: (ud ++ (')' :: rem)))) = false := rfl
    simp only [tryNoteParen, hnot, hpre, if_true, Bool.false_eq_true, if_false,
      List.drop_left, hmu]

/-- The scanner consumed the whole input: nothing further is produced. -/
theorem replaceNoteLinksGo_nil (record : List (String × String)) (nt nu : String)
    (fuel : Nat) : replaceNoteLinksGo record nt nu fuel [] = ([], []) := by
  cases fuel with
  | zero => rfl
  | succ n => rfl

/-- One whole-input link match: the scanner rewrites
`[linkText](scheme/uuid)` according to the export-plan lookup. -/
theorem replaceNoteLinksGo_link (record : List (String × String)) (nt nu : String)
    (fuel : Nat) (ltd sd ud : List Char)
    (hlt : ∀ c ∈ ltd, ¬ c = ']' ∧ isJsLineTerminator c = false)
    (hscheme : sd = "quiver-note-url".data ∨ sd = "quiver:///notes".data)
    (huuid : CanonicalUuid ud) :
    replaceNoteLinksGo record nt nu (fuel + 1)
      ('[' :: (ltd ++ (']' :: '(' :: (sd ++ ('/' :: (ud ++ [')'])))))) =
      (match record.lookup (String.mk ud) with
        | none => ((" [[" ++ String.mk ud ++ "]]" : String).data,
            [⟨nt, nu, String.mk ud⟩])
        | some p => ((" [[" ++ basename p ++ "]]" : String).data, [])) := by
  have hfc : findNoteClose (ltd ++ (']' :: '(' :: (sd ++ ('/' :: (ud ++ [')']))))) =
      some (ud, []) := by
    rw [findNoteClose_skip ltd _ hlt]
    have hmatch := tryNoteParen_ok sd ud [] hscheme huuid
    simp [findNoteClose, hmatch]
  simp only [replaceNoteLinksGo, if_pos rfl, hfc]
  cases hlookup : record.lookup (String.mk ud) with
  | none => simp [hlookup, replaceNoteLinksGo_nil]
  | some p => simp [hlookup, replaceNoteLinksGo_nil]

/-- Counterexample to claim C1 as stated: with the target uuid mapped to
`quiver/NB/Note.md`, the rewriter emits ` [[Note.md]]` — the wikilink
contains the basename with its `.md` extension (`path.basename` keeps the
extension), not the stem `Note` the claim requires. -/
theorem claim_C1_counterexample :
    transformQuiverResourceAndNoteLink [] []
      [("11111111-2222-3333-4444-555555555555", "quiver/NB/Note.md")] "Src" "su"
      "[x](quiver-note-url/11111111-2222-3333-4444-555555555555)" =
      (" [[Note.md]]", []) ∧
    specStem "quiver/NB/Note.md" = "Note" ∧
    (" [[Note.md]]" : String) ≠ " [[Note]]" := ⟨by decide, by decide, by decide⟩

/-- Claim C1 (amended): for a note-to-note link `[text](scheme/uuid)` in
either recognized scheme with a canonical 36-character hyphenated
uppercase-hex uuid: if the target uuid has an entry in the export plan the
rewriter replaces the link with a wikilink containing exactly the
*basename* of the mapped path — the final filename *including* its
extension — prefixed by one space; if the uuid has no entry it emits a
wikilink containing the literal uuid and appends exactly one BrokenLink
`{sourceNoteTitle, sourceNoteId, targetNoteId}`. -/
theorem claim_C1_note_link_rewrite (record : List (String × String))
    (noteTitle noteUuid linkText scheme u : String)
    (hscheme : scheme = "quiver-note-url" ∨ scheme = "quiver:///notes")
    (huuid : CanonicalUuid u.data)
    (hlt : ∀ c ∈ linkText.data, ¬ c = ']' ∧ isJsLineTerminator c = false) :
    (∀ p, record.lookup u = some p →
      replaceNoteLinks record noteTitle noteUuid
        ("[" ++ linkText ++ "](" ++ scheme ++ "/" ++ u ++ ")") =
        (" [[" ++ basename p ++ "]]", [])) ∧
    (record.lookup u = none →
      replaceNoteLinks record noteTitle noteUuid
        ("[" ++ linkText ++ "](" ++ scheme ++ "/" ++ u ++ ")") =
        (" [[" ++ u ++ "]]", [⟨noteTitle, noteUuid, u⟩])) := by
  have hdata : ("[" ++ linkText ++ "](" ++ scheme ++ "/" ++ u ++ ")").data =
      '[' :: (linkText.data ++ (']' :: '(' :: (scheme.data ++ ('/' ::
        (u.data ++ [')']))))) := by
    show (((((['['] ++ linkText.data) ++ [']', '(']) ++ scheme.data) ++ ['/']) ++
      u.data) ++ [')'] = _
    simp [List.append_assoc]
  have hsd : scheme.data = "quiver-note-url".data ∨ scheme.data = "quiver:///notes".data := by
    rcases hscheme with hs | hs
    · exact Or.inl (by rw [hs])
    · exact Or.inr (by rw [hs])
  have hmk : String.mk u.data = u := rfl
  have hgo := replaceNoteLinksGo_link record noteTitle noteUuid
    (("[" ++ linkText ++ "](" ++ scheme ++ "/" ++ u ++ ")").data.length)
    linkText.data scheme.data u.data hlt hsd huuid
  constructor
  · intro p hp
    rw [hmk, hp] at hgo
    simp only [replaceNoteLinks]
    rw [hdata] at hgo ⊢
    rw [hgo]
  · intro hp
    rw [hmk, hp] at hgo
    simp only [replaceNoteLinks]
    rw [hdata] at hgo ⊢
    rw [hgo]

/-- Witness for C1 at concrete inputs: a mapped uuid rewrites to the
basename wikilink; an unmapped uuid (second scheme) rewrites to the
literal-uuid wikilink with exactly one broken-link record. -/
theorem claim_C1_witness :
    replaceNoteLinks [("AAAAAAAA-1111-2222-3333-444444444444", "quiver/NB/Note.md")]
      "Src" "su" "[x](quiver-note-url/AAAAAAAA-1111-2222-3333-444444444444)" =
      (" [[Note.md]]", []) ∧
    replaceNoteLinks [] "Src" "su"
      "[x](quiver:///notes/AAAAAAAA-1111-2222-3333-444444444444)" =
      (" [[AAAAAAAA-1111-2222-3333-444444444444]]",
        [⟨"Src", "su", "AAAAAAAA-1111-2222-3333-444444444444"⟩]) := by
  have hcanon : CanonicalUuid ("AAAAAAAA-1111-2222-3333-444444444444" : String).data :=
    ⟨"AAAAAAAA".data, "1111".data, "2222".data, "3333".data, "444444444444".data,
      by decide, by decide, by decide, by decide, by decide, by decide, by decide⟩
  constructor
  · have h := (claim_C1_note_link_rewrite
      [("AAAAAAAA-1111-2222-3333-444444444444", "quiver/NB/Note.md")] "Src" "su"
      "x" "quiver-note-url" "AAAAAAAA-1111-2222-3333-444444444444"
      (Or.inl rfl) hcanon (by decide)).1 "quiver/NB/Note.md" (by decide)
    exact h
  · have h := (claim_C1_note_link_rewrite [] "Src" "su"
      "x" "quiver:///notes" "AAAAAAAA-1111-2222-3333-444444444444"
      (Or.inr rfl) hcanon (by decide)).2 (by decide)
    exact h

/-! ## Claim C9: content-mode namer rules and bare occurrences -/

/-- A content-mode global replacement pass leaves parenthesis-free text
unchanged, for any matcher and renderer. -/
theorem globalParenReplace_no_paren
    (matchAt : List Char → Option (List Char × List Char))
    (render : List Char → List Char) :
    ∀ (fuel : Nat) (cs : List Char), (∀ c ∈ cs, ¬ c = '(') →
      globalParenReplace matchAt render fuel cs = cs := by
  intro fuel
  induction fuel with
  | zero => intro cs _; rfl
  | succ fuel ih =>
    intro cs h
    cases cs with
    | nil => rfl
    | cons c rest =>
      have hc := h c (by simp)
      simp only [globalParenReplace]
      rw [if_neg hc]
      rw [ih rest (fun x hx => h x (by simp [hx]))]

/-- Counterexample to claim C9 as stated: with an empty per-note resource
map, a bare `_resources/<32-hex>` reference is left without `.png` by the
whole pipeline, while the same reference wrapped in parentheses does get
`.png` appended — the namer rules do not apply to bare occurrences. -/
theorem claim_C9_counterexample :
    transformQuiverResourceAndNoteLink [] [] [] "T" "tu"
      "x _resources/BC8755B05A094564A25EA19E438B73B3" =
      ("x _resources/BC8755B05A094564A25EA19E438B73B3", []) ∧
    transformQuiverResourceAndNoteLink [] [] [] "T" "tu"
      "(_resources/BC8755B05A094564A25EA19E438B73B3)" =
      ("(_resources/BC8755B05A094564A25EA19E438B73B3.png)", []) :=
  ⟨by decide, by decide⟩

/-- Claim C9 (amended): in content mode every `replaceResourceName` rule
fires only inside parenthesis-delimited occurrences.  A bare
`_resources/<32-hex>` reference is left unchanged by the namer for every
configured extension list; a parenthesized one gets `.png` appended; and a
bare reference is renamed only by the later per-note resource-map lookup
step, when the map holds the original name (mapped to its `.png`-suffixed
final name). -/
theorem claim_C9_paren_only_content_rules (cfg : List String) :
    replaceResourceName cfg "x _resources/BC8755B05A094564A25EA19E438B73B3" false =
      "x _resources/BC8755B05A094564A25EA19E438B73B3" ∧
    replaceResourceName [] "(_resources/BC8755B05A094564A25EA19E438B73B3)" false =
      "(_resources/BC8755B05A094564A25EA19E438B73B3.png)" ∧
    transformQuiverResourceAndNoteLink []
      [("BC8755B05A094564A25EA19E438B73B3", "BC8755B05A094564A25EA19E438B73B3.png")] []
      "T" "tu" "x _resources/BC8755B05A094564A25EA19E438B73B3" =
      ("x _resources/BC8755B05A094564A25EA19E438B73B3.png", []) := by
  refine ⟨?_, by decide, by decide⟩
  have hnp : ∀ c ∈ ("x _resources/BC8755B05A094564A25EA19E438B73B3" : String).data,
      ¬ c = '(' := by decide
  show (let t1 := String.mk (globalParenReplace contentRule1Match (fun g1 => g1) _ _)
    let t2 := if cfg.isEmpty then t1
      else String.mk (globalParenReplace (contentRule2Match cfg)
        (fun g1 => g1 ++ ".png".data) (t1.data.length + 1) t1.data)
    String.mk (globalParenReplace contentRule3Match (fun g1 => g1 ++ ".png".data)
      (t2.data.length + 1) t2.data)) = _
  rw [globalParenReplace_no_paren _ _ _ _ hnp]
  simp only []
  by_cases he : cfg.isEmpty
  · simp only [he, if_true]
    rw [globalParenReplace_no_paren _ _ _ _ hnp]
  · simp only [he, Bool.false_eq_true, if_false]
    rw [globalParenReplace_no_paren _ _ _ _ hnp]
    simp only []
    rw [globalParenReplace_no_paren _ _ _ _ hnp]

end QuiverToObsidian
